import Mathlib

/-!
Verification development for the Fluorine-Manager layered virtual filesystem
core (`src/vfs/vfstree.cpp`, `src/vfs/inodetable.cpp`,
`src/vfs/overwritemanager.cpp`, `src/vfs/mo2filesystem.cpp`,
`src/fuseconnector.cpp`).

The C++ code is shallowly embedded: `std::unordered_map` becomes an
association list with first-match lookup, machine integers become `Nat`,
on-disk state becomes an explicit map from host path to file bytes, and the
directory walks performed by `std::filesystem::recursive_directory_iterator`
become explicit entry lists handed to the functions that consume them.
Strings are modelled as sequences of characters; the Qt Unicode machinery in
`normalizeForLookup` (NFC normalization plus `toLower`) is modelled by
per-character ASCII lowering, which coincides with Qt's behaviour on the
ASCII subset that the specification's claims quantify over.
-/

namespace FM

/-! ## Association lists (model of `std::unordered_map`)

A map is represented by an association list with first-match lookup.
`setA` is `operator[]`/`insert_or_assign` (replace or append), `eraseA` is
`erase` (on the first-match representation it removes every binding of the
key, which agrees with `erase` on lists that represent a map), `emplaceA`
is `emplace` (insert only when the key is absent). -/

def lookupA {κ : Type} {α : Type} [DecidableEq κ] (k : κ) : List (κ × α) → Option α
  | [] => none
  | (k', v) :: rest => if k' = k then some v else lookupA k rest

def setA {κ : Type} {α : Type} [DecidableEq κ] (k : κ) (v : α) : List (κ × α) → List (κ × α)
  | [] => [(k, v)]
  | (k', v') :: rest => if k' = k then (k, v) :: rest else (k', v') :: setA k v rest

def eraseA {κ : Type} {α : Type} [DecidableEq κ] (k : κ) : List (κ × α) → List (κ × α)
  | [] => []
  | (k', v) :: rest => if k' = k then eraseA k rest else (k', v) :: eraseA k rest

def emplaceA {κ : Type} {α : Type} [DecidableEq κ] (k : κ) (v : α) (m : List (κ × α)) :
    List (κ × α) :=
  if (lookupA k m).isSome then m else setA k v m

theorem lookupA_setA {κ α : Type} [DecidableEq κ] (k k' : κ) (v : α) (m : List (κ × α)) :
    lookupA k' (setA k v m) = if k' = k then some v else lookupA k' m := by
  by_cases h : k' = k
  · subst h
    rw [if_pos rfl]
    induction m with
    | nil => simp [setA, lookupA]
    | cons kv rest ih =>
      obtain ⟨k1, v1⟩ := kv
      by_cases h1 : k1 = k'
      · subst h1; simp [setA, lookupA]
      · simp [setA, lookupA, h1, ih]
  · rw [if_neg h]
    have h' : ¬ k = k' := fun hh => h hh.symm
    induction m with
    | nil => simp [setA, lookupA, h']
    | cons kv rest ih =>
      obtain ⟨k1, v1⟩ := kv
      by_cases h1 : k1 = k
      · subst h1
        have h1' : ¬ k1 = k' := fun hh => h hh.symm
        simp [setA, lookupA, h1']
      · by_cases h2 : k1 = k'
        · subst h2; simp [setA, lookupA, h1]
        · simp [setA, lookupA, h1, h2, ih]

theorem lookupA_eraseA {κ α : Type} [DecidableEq κ] (k k' : κ) (m : List (κ × α)) :
    lookupA k' (eraseA k m) = if k' = k then none else lookupA k' m := by
  by_cases h : k' = k
  · subst h
    rw [if_pos rfl]
    induction m with
    | nil => simp [eraseA, lookupA]
    | cons kv rest ih =>
      obtain ⟨k1, v1⟩ := kv
      by_cases h1 : k1 = k'
      · subst h1; simp [eraseA, lookupA, ih]
      · simp [eraseA, lookupA, h1, ih]
  · rw [if_neg h]
    induction m with
    | nil => simp [eraseA, lookupA]
    | cons kv rest ih =>
      obtain ⟨k1, v1⟩ := kv
      by_cases h1 : k1 = k
      · subst h1
        have h1' : ¬ k1 = k' := fun hh => h hh.symm
        simp [eraseA, lookupA, h1', ih]
      · by_cases h2 : k1 = k'
        · subst h2; simp [eraseA, lookupA, h1]
        · simp [eraseA, lookupA, h1, h2, ih]

theorem lookupA_emplaceA {κ α : Type} [DecidableEq κ] (k k' : κ) (v : α) (m : List (κ × α)) :
    lookupA k' (emplaceA k v m) =
      if (lookupA k m).isSome then lookupA k' m
      else if k' = k then some v else lookupA k' m := by
  by_cases h : (lookupA k m).isSome <;> simp [emplaceA, h, lookupA_setA]

theorem lookupA_mem {κ α : Type} [DecidableEq κ] {k : κ} {v : α} {m : List (κ × α)} :
    lookupA k m = some v → (k, v) ∈ m := by
  induction m with
  | nil => intro h; simp [lookupA] at h
  | cons kv rest ih =>
    obtain ⟨k1, v1⟩ := kv
    by_cases h1 : k1 = k
    · subst h1
      simp only [lookupA, if_pos rfl]
      intro h
      obtain rfl := Option.some.inj h
      exact List.mem_cons_self _ _
    · simp only [lookupA, if_neg h1]
      intro h
      exact List.mem_cons_of_mem _ (ih h)

/-! ## Initial-segment test on lists and strings -/

def leads {α : Type} [DecidableEq α] : List α → List α → Bool
  | [], _ => true
  | _ :: _, [] => false
  | a :: l1, b :: l2 => if a = b then leads l1 l2 else false

theorem leads_nil {α : Type} [DecidableEq α] (l : List α) : leads ([] : List α) l = true := by
  cases l <;> rfl

theorem leads_iff_append {α : Type} [DecidableEq α] (p l : List α) :
    leads p l = true ↔ ∃ r, l = p ++ r := by
  induction p generalizing l with
  | nil => simp [leads_nil]
  | cons a p ih =>
    cases l with
    | nil =>
      constructor
      · intro h; exact absurd h (by simp [leads])
      · rintro ⟨r, hr⟩; exact absurd hr (by simp)
    | cons b l =>
      by_cases h : a = b
      · subst h
        simp only [leads, if_pos rfl, List.cons_append, List.cons.injEq, true_and]
        exact (ih l).trans (by simp)
      · simp only [leads, if_neg h]
        constructor
        · intro hf; cases hf
        · rintro ⟨r, hr⟩
          rw [List.cons_append, List.cons.injEq] at hr
          exact absurd hr.1.symm h

theorem leads_refl {α : Type} [DecidableEq α] (l : List α) : leads l l = true := by
  rw [leads_iff_append]; exact ⟨[], by simp⟩

theorem leads_append {α : Type} [DecidableEq α] (p r : List α) : leads p (p ++ r) = true := by
  rw [leads_iff_append]; exact ⟨r, rfl⟩

theorem leads_length_le {α : Type} [DecidableEq α] {p l : List α} (h : leads p l = true) :
    p.length ≤ l.length := by
  obtain ⟨r, hr⟩ := (leads_iff_append p l).1 h
  subst hr; simp

theorem leads_trans_of_le {α : Type} [DecidableEq α] {p q l : List α}
    (hp : leads p l = true) (hq : leads q l = true) (hle : p.length ≤ q.length) :
    leads p q = true := by
  obtain ⟨r1, hr1⟩ := (leads_iff_append p l).1 hp
  obtain ⟨r2, hr2⟩ := (leads_iff_append q l).1 hq
  have h1 : p <+: l := ⟨r1, hr1.symm⟩
  have h2 : q <+: l := ⟨r2, hr2.symm⟩
  obtain ⟨s, hs⟩ := List.prefix_of_prefix_length_le h1 h2 hle
  exact (leads_iff_append p q).2 ⟨s, hs.symm⟩

/-- String-level initial-segment test (character-wise). -/
def strLeads (p s : String) : Bool := leads p.data s.data

/-- Character-wise drop on strings (model of `substr(pos)` on the ASCII data
over which the claims quantify). -/
def strDrop (n : Nat) (s : String) : String := String.mk (s.data.drop n)

/-! ## Path normalization (`src/vfs/vfstree.cpp`) -/

/-- One character of `normalizeForLookup`: Qt lowercases the string and then
replaces backslashes by forward slashes.  Qt's NFC normalization and Unicode
lowering restrict to per-character ASCII lowering on the ASCII subset the
claims quantify over, which is what `Char.toLower` performs. -/
def normChar (c : Char) : Char :=
  let l := c.toLower
  if l = '\\' then '/' else l

/-- Model of `normalizeForLookup` from `vfstree.cpp`: NFC-normalize,
lowercase, then replace `\` by `/`. -/
def normalizeForLookup (s : String) : String := String.mk (s.data.map normChar)

/-- Backslash replacement performed at the start of `splitPath`. -/
def repSlash (c : Char) : Char := if c = '\\' then '/' else c

/-- Accumulator loop of `splitPath` over the slash-replaced characters:
runs of `/` separate components, empty components are never produced. -/
def splitPathGo : List Char → List Char → List String
  | [], cur => if cur = [] then [] else [String.mk cur.reverse]
  | c :: rest, cur =>
    if c = '/' then
      if cur = [] then splitPathGo rest []
      else String.mk cur.reverse :: splitPathGo rest []
    else splitPathGo rest (c :: cur)

/-- Model of the anonymous-namespace `splitPath` of `vfstree.cpp` (the same
function is duplicated in `mo2filesystem.cpp`): replace `\` by `/`, then
split on `/`, skipping empty runs. -/
def splitPath (path : String) : List String :=
  splitPathGo (path.data.map repSlash) []

/-- Model of `canonicalizePath` from `inodetable.cpp`: replace `\` by `/`,
then strip leading and trailing slashes. -/
def canonicalizePath (s : String) : String :=
  let repl := s.data.map repSlash
  let noLead := repl.dropWhile (fun c => c = '/')
  String.mk ((noLead.reverse.dropWhile (fun c => c = '/')).reverse)

/-- Model of `sanitizeRelative` from `overwritemanager.cpp`: replace `\` by
`/` and strip leading slashes. -/
def sanitizeRelative (s : String) : String :=
  String.mk ((s.data.map repSlash).dropWhile (fun c => c = '/'))

/-- Model of `joinPath` from `mo2filesystem.cpp`. -/
def joinPath (base name : String) : String :=
  if base = "" then name else base ++ "/" ++ name

/-! ## The layered tree (`src/vfs/vfstree.cpp`)

The C++ `VfsNode` carries `is_directory`, `file_info` and `dir_info` side by
side, but maintains the exclusivity invariant: a node with
`is_directory == false` never has children (insertion resets `dir_info`
whenever a file node is converted into a directory, and file nodes are
always freshly constructed).  The embedding therefore uses a two-constructor
tagged union, exactly as the specification's data model describes.
`children` and `display_names` become association lists. -/

structure VfsFileInfo where
  real_path : String
  size : Nat
  mtime : Nat
  origin : String
  is_backing : Bool
deriving DecidableEq

inductive VfsNode where
  | file (info : VfsFileInfo)
  | dir (children : List (String × VfsNode)) (display : List (String × String))

def VfsNode.isDirB : VfsNode → Bool
  | .file _ => false
  | .dir _ _ => true

def VfsNode.childrenOf : VfsNode → List (String × VfsNode)
  | .file _ => []
  | .dir cs _ => cs

def VfsNode.displayOf : VfsNode → List (String × String)
  | .file _ => []
  | .dir _ ds => ds

def VfsNode.fileInfo? : VfsNode → Option VfsFileInfo
  | .file i => some i
  | .dir _ _ => none

/-- Child selection shared by the insertion walks: keep an existing
directory child, otherwise (missing child, or a file in the way) start from
a fresh empty directory — the C++
`if (it == children.end() || !it->second->is_directory)` branch. -/
def childOrDir (key : String) (cs : List (String × VfsNode)) : VfsNode :=
  match lookupA key cs with
  | some c => if c.isDirB then c else VfsNode.dir [] []
  | none => VfsNode.dir [] []

theorem childOrDir_none {key : String} {cs : List (String × VfsNode)}
    (h : lookupA key cs = none) : childOrDir key cs = VfsNode.dir [] [] := by
  simp [childOrDir, h]

theorem childOrDir_file {key : String} {cs : List (String × VfsNode)} {j : VfsFileInfo}
    (h : lookupA key cs = some (VfsNode.file j)) : childOrDir key cs = VfsNode.dir [] [] := by
  simp [childOrDir, h, VfsNode.isDirB]

theorem childOrDir_dir {key : String} {cs : List (String × VfsNode)}
    {cs2 : List (String × VfsNode)} {ds2 : List (String × String)}
    (h : lookupA key cs = some (VfsNode.dir cs2 ds2)) :
    childOrDir key cs = VfsNode.dir cs2 ds2 := by
  simp [childOrDir, h, VfsNode.isDirB]

/-- Model of `VfsNode::insertFile`: walk the components, skipping empty
parts, converting non-directories into empty directories, recording the
display spelling, creating missing intermediate directories (and replacing
intermediate file nodes by fresh empty directories); the terminal component
is bound to a fresh file node, replacing whatever was there. -/
def VfsNode.insertFile : VfsNode → List String → VfsFileInfo → VfsNode
  | n, [], _ => n
  | n, [part], info =>
    if part = "" then n
    else
      let key := normalizeForLookup part
      VfsNode.dir (setA key (VfsNode.file info) n.childrenOf) (setA key part n.displayOf)
  | n, part :: rest, info =>
    if part = "" then n.insertFile rest info
    else
      let key := normalizeForLookup part
      VfsNode.dir (setA key ((childOrDir key n.childrenOf).insertFile rest info) n.childrenOf)
        (setA key part n.displayOf)

/-- Model of `VfsNode::insertDirectory`: like `insertFile` but every
component, including the last, only ensures a directory child. -/
def VfsNode.insertDirectory : VfsNode → List String → VfsNode
  | n, [] => n
  | n, part :: rest =>
    if part = "" then n.insertDirectory rest
    else
      let key := normalizeForLookup part
      VfsNode.dir (setA key ((childOrDir key n.childrenOf).insertDirectory rest) n.childrenOf)
        (setA key part n.displayOf)

/-- Model of `VfsNode::resolve`: case-insensitive descent, skipping empty
components, failing when a non-terminal is missing or is a file. -/
def VfsNode.resolve : VfsNode → List String → Option VfsNode
  | n, [] => some n
  | n, part :: rest =>
    if part = "" then n.resolve rest
    else
      match n with
      | .file _ => none
      | .dir cs _ =>
        match lookupA (normalizeForLookup part) cs with
        | none => none
        | some child => child.resolve rest

/-- Model of `VfsNode::listChildren`: children that have a display name, with
the preserved spelling. -/
def VfsNode.listChildren (n : VfsNode) : List (String × VfsNode) :=
  match n with
  | .file _ => []
  | .dir cs ds => cs.filterMap (fun kv => (lookupA kv.1 ds).map (fun d => (d, kv.2)))

/-- Model of `removeNodeRecursive` from `vfstree.cpp`.  Returns whether a
node was removed together with the updated node; empty parent directories
are pruned on the way back up.  Failure paths leave the node unchanged,
matching the C++ code where every mutation is guarded by success. -/
def VfsNode.removeGo : VfsNode → List String → Bool × VfsNode
  | n, [] => (false, n)
  | n, part :: rest =>
    match n with
    | .file _ => (false, n)
    | .dir cs ds =>
      let key := normalizeForLookup part
      match lookupA key cs with
      | none => (false, VfsNode.dir cs ds)
      | some child =>
        match rest with
        | [] => (true, VfsNode.dir (eraseA key cs) (eraseA key ds))
        | _ :: _ =>
          let r := child.removeGo rest
          if r.1 then
            if r.2.isDirB && r.2.childrenOf.isEmpty then
              (true, VfsNode.dir (eraseA key cs) (eraseA key ds))
            else
              (true, VfsNode.dir (setA key r.2 cs) ds)
          else (false, VfsNode.dir cs ds)

/-- Model of `VfsNode::removeFromTree`. -/
def VfsNode.removeFromTree (n : VfsNode) (comps : List String) : Bool × VfsNode :=
  if comps = [] then (false, n) else n.removeGo comps

structure VfsTree where
  root : VfsNode
  file_count : Nat
  dir_count : Nat

/-! ## Key-level view of resolution

`resolve` first discards empty components and normalizes the remaining
ones; `resolveKeys` performs the raw descent on the resulting keys. -/

def effKeys : List String → List String
  | [] => []
  | c :: rest => if c = "" then effKeys rest else normalizeForLookup c :: effKeys rest

def allNE : List String → Bool
  | [] => true
  | c :: rest => if c = "" then false else allNE rest

def resolveKeys : List String → VfsNode → Option VfsNode
  | [], n => some n
  | k :: ks, n =>
    match n with
    | .file _ => none
    | .dir cs _ =>
      match lookupA k cs with
      | none => none
      | some child => resolveKeys ks child

theorem effKeys_of_allNE {comps : List String} (h : allNE comps = true) :
    effKeys comps = comps.map normalizeForLookup := by
  induction comps with
  | nil => rfl
  | cons c rest ih =>
    by_cases hc : c = ""
    · rw [allNE, if_pos hc] at h; cases h
    · rw [allNE, if_neg hc] at h
      simp [effKeys, hc, ih h]

theorem resolve_eq_resolveKeys (comps : List String) :
    ∀ n : VfsNode, n.resolve comps = resolveKeys (effKeys comps) n := by
  induction comps with
  | nil => intro n; rfl
  | cons part rest ih =>
    intro n
    by_cases hp : part = ""
    · simp only [VfsNode.resolve, if_pos hp, effKeys]
      exact ih n
    · simp only [VfsNode.resolve, if_neg hp, effKeys]
      cases n with
      | file i => rfl
      | dir cs ds =>
        simp only [resolveKeys]
        cases lookupA (normalizeForLookup part) cs with
        | none => rfl
        | some child => exact ih child

theorem resolveKeys_emptyDir {ks : List String} (h : ks ≠ []) :
    resolveKeys ks (VfsNode.dir [] []) = none := by
  cases ks with
  | nil => exact absurd rfl h
  | cons k ks => simp [resolveKeys, lookupA]

theorem resolveKeys_file {ks : List String} (i : VfsFileInfo) (h : ks ≠ []) :
    resolveKeys ks (VfsNode.file i) = none := by
  cases ks with
  | nil => exact absurd rfl h
  | cons k ks => rfl

theorem resolveKeys_cons_some {k : String} {cs : List (String × VfsNode)} {c : VfsNode}
    (ks : List String) (ds : List (String × String)) (h : lookupA k cs = some c) :
    resolveKeys (k :: ks) (VfsNode.dir cs ds) = resolveKeys ks c := by
  simp [resolveKeys, h]

theorem resolveKeys_cons_none {k : String} {cs : List (String × VfsNode)}
    (ks : List String) (ds : List (String × String)) (h : lookupA k cs = none) :
    resolveKeys (k :: ks) (VfsNode.dir cs ds) = none := by
  simp [resolveKeys, h]

theorem lookupA_setA_self {κ α : Type} [DecidableEq κ] (k : κ) (v : α) (m : List (κ × α)) :
    lookupA k (setA k v m) = some v := by
  rw [lookupA_setA, if_pos rfl]

theorem childOrDir_isDir (key : String) (cs : List (String × VfsNode)) :
    ∃ cs2 ds2, childOrDir key cs = VfsNode.dir cs2 ds2 := by
  cases hc : lookupA key cs with
  | none => exact ⟨[], [], childOrDir_none hc⟩
  | some c =>
    cases c with
    | file j => exact ⟨[], [], childOrDir_file hc⟩
    | dir a b => exact ⟨a, b, childOrDir_dir hc⟩

/-- Inserting a file at a non-empty all-non-empty component path makes the
path resolve to exactly the inserted file reference, whatever was there
before. -/
theorem resolveKeys_insertFile_self (comps : List String) (info : VfsFileInfo) :
    ∀ n : VfsNode, comps ≠ [] → allNE comps = true →
    resolveKeys (comps.map normalizeForLookup) (n.insertFile comps info) =
      some (VfsNode.file info) := by
  induction comps with
  | nil => intro n h _; exact absurd rfl h
  | cons part rest ih =>
    intro n _ hne
    rw [allNE] at hne
    by_cases hp : part = ""
    · rw [if_pos hp] at hne; cases hne
    · rw [if_neg hp] at hne
      cases rest with
      | nil =>
        simp only [VfsNode.insertFile, if_neg hp, List.map]
        rw [resolveKeys_cons_some _ _ (lookupA_setA_self _ _ _)]
        rfl
      | cons q tail =>
        simp only [VfsNode.insertFile, if_neg hp, List.map]
        rw [resolveKeys_cons_some _ _ (lookupA_setA_self _ _ _)]
        exact ih _ (by simp) hne

/-- Inserting a non-empty directory path makes the path resolve to a
directory node. -/
theorem resolveKeys_insertDirectory_self (comps : List String) :
    ∀ n : VfsNode, comps ≠ [] → allNE comps = true →
    ∃ cs ds, resolveKeys (comps.map normalizeForLookup) (n.insertDirectory comps) =
      some (VfsNode.dir cs ds) := by
  induction comps with
  | nil => intro n h _; exact absurd rfl h
  | cons part rest ih =>
    intro n _ hne
    rw [allNE] at hne
    by_cases hp : part = ""
    · rw [if_pos hp] at hne; cases hne
    · rw [if_neg hp] at hne
      simp only [VfsNode.insertDirectory, if_neg hp, List.map]
      cases rest with
      | nil =>
        obtain ⟨cs2, ds2, hcd⟩ := childOrDir_isDir (normalizeForLookup part) n.childrenOf
        refine ⟨cs2, ds2, ?_⟩
        rw [resolveKeys_cons_some _ _ (lookupA_setA_self _ _ _)]
        rw [show (childOrDir (normalizeForLookup part) n.childrenOf).insertDirectory [] =
          childOrDir (normalizeForLookup part) n.childrenOf from rfl, hcd]
        rfl
      | cons q tail =>
        obtain ⟨cs2, ds2, hres⟩ := ih (childOrDir (normalizeForLookup part)
          n.childrenOf) (by simp) hne
        refine ⟨cs2, ds2, ?_⟩
        rw [resolveKeys_cons_some _ _ (lookupA_setA_self _ _ _)]
        exact hres

/-- Frame property of `insertFile`: a query whose key path neither extends
nor is extended by the inserted key path resolves to the same node as
before the insertion. -/
theorem resolveKeys_insertFile_frame (comps : List String) (info : VfsFileInfo) :
    ∀ (n : VfsNode) (ks : List String),
    leads (effKeys comps) ks = false → leads ks (effKeys comps) = false →
    resolveKeys ks (n.insertFile comps info) = resolveKeys ks n := by
  induction comps with
  | nil =>
    intro n ks h1 _
    rw [effKeys] at h1
    simp [leads_nil] at h1
  | cons part rest ih =>
    intro n ks h1 h2
    cases rest with
    | nil =>
      by_cases hp : part = ""
      · simp [VfsNode.insertFile, hp]
      · have hek : effKeys [part] = [normalizeForLookup part] := by
          rw [effKeys, if_neg hp]; rfl
        rw [hek] at h1 h2
        cases ks with
        | nil => simp [leads_nil] at h2
        | cons k ks' =>
          have hkey : ¬ k = normalizeForLookup part := by
            intro he
            rw [leads, if_pos he.symm] at h1
            simp [leads_nil] at h1
          simp only [VfsNode.insertFile, if_neg hp]
          have hlk : lookupA k (setA (normalizeForLookup part) (VfsNode.file info)
              n.childrenOf) = lookupA k n.childrenOf := by
            rw [lookupA_setA, if_neg hkey]
          cases n with
          | file i =>
            have hnone : lookupA k (VfsNode.file i).childrenOf = none := rfl
            rw [resolveKeys_cons_none _ _ (hlk.trans hnone), resolveKeys_file i (by simp)]
          | dir cs ds =>
            cases hc : lookupA k cs with
            | none =>
              rw [resolveKeys_cons_none _ _ (hlk.trans hc), resolveKeys_cons_none _ _ hc]
            | some c =>
              rw [resolveKeys_cons_some _ _ (hlk.trans hc), resolveKeys_cons_some _ _ hc]
    | cons q tail =>
      by_cases hp : part = ""
      · simp only [VfsNode.insertFile, if_pos hp]
        rw [effKeys, if_pos hp] at h1 h2
        exact ih n ks h1 h2
      · have hek : effKeys (part :: q :: tail) =
            normalizeForLookup part :: effKeys (q :: tail) := by
          rw [effKeys, if_neg hp]
        rw [hek] at h1 h2
        cases ks with
        | nil => simp [leads_nil] at h2
        | cons k ks' =>
          by_cases hk : k = normalizeForLookup part
          · subst hk
            have h1' : leads (effKeys (q :: tail)) ks' = false := by
              simpa [leads] using h1
            have h2' : leads ks' (effKeys (q :: tail)) = false := by
              simpa [leads] using h2
            have hks' : ks' ≠ [] := by
              intro he; subst he; simp [leads_nil] at h2'
            simp only [VfsNode.insertFile, if_neg hp]
            rw [resolveKeys_cons_some _ _ (lookupA_setA_self _ _ _)]
            rw [ih _ ks' h1' h2']
            cases n with
            | file i =>
              rw [@childOrDir_none (normalizeForLookup part) ((VfsNode.file i).childrenOf) rfl]
              rw [resolveKeys_emptyDir hks', resolveKeys_file i (by simp)]
            | dir cs ds =>
              simp only [VfsNode.childrenOf]
              cases hc : lookupA (normalizeForLookup part) cs with
              | none =>
                rw [childOrDir_none hc, resolveKeys_emptyDir hks',
                  resolveKeys_cons_none _ _ hc]
              | some c =>
                cases c with
                | file j =>
                  rw [childOrDir_file hc, resolveKeys_emptyDir hks',
                    resolveKeys_cons_some _ _ hc, resolveKeys_file j hks']
                | dir cs2 ds2 =>
                  rw [childOrDir_dir hc, resolveKeys_cons_some _ _ hc]
          · simp only [VfsNode.insertFile, if_neg hp]
            have hlk : ∀ x, lookupA k (setA (normalizeForLookup part) x
                n.childrenOf) = lookupA k n.childrenOf := by
              intro x; rw [lookupA_setA, if_neg hk]
            cases n with
            | file i =>
              have hnone : lookupA k (VfsNode.file i).childrenOf = none := rfl
              rw [resolveKeys_cons_none _ _ ((hlk _).trans hnone),
                resolveKeys_file i (by simp)]
            | dir cs ds =>
              cases hc : lookupA k cs with
              | none =>
                rw [resolveKeys_cons_none _ _ ((hlk _).trans hc),
                  resolveKeys_cons_none _ _ hc]
              | some c =>
                rw [resolveKeys_cons_some _ _ ((hlk _).trans hc),
                  resolveKeys_cons_some _ _ hc]

/-- Frame property of `insertDirectory`, analogous to
`resolveKeys_insertFile_frame`. -/
theorem resolveKeys_insertDirectory_frame (comps : List String) :
    ∀ (n : VfsNode) (ks : List String),
    leads (effKeys comps) ks = false → leads ks (effKeys comps) = false →
    resolveKeys ks (n.insertDirectory comps) = resolveKeys ks n := by
  induction comps with
  | nil =>
    intro n ks _ _
    rfl
  | cons part rest ih =>
    intro n ks h1 h2
    by_cases hp : part = ""
    · simp only [VfsNode.insertDirectory, if_pos hp]
      rw [effKeys, if_pos hp] at h1 h2
      exact ih n ks h1 h2
    · have hek : effKeys (part :: rest) =
          normalizeForLookup part :: effKeys rest := by
        rw [effKeys, if_neg hp]
      rw [hek] at h1 h2
      cases ks with
      | nil => simp [leads_nil] at h2
      | cons k ks' =>
        by_cases hk : k = normalizeForLookup part
        · subst hk
          have h1' : leads (effKeys rest) ks' = false := by
            simpa [leads] using h1
          have h2' : leads ks' (effKeys rest) = false := by
            simpa [leads] using h2
          have hks' : ks' ≠ [] := by
            intro he; subst he; simp [leads_nil] at h2'
          simp only [VfsNode.insertDirectory, if_neg hp]
          rw [resolveKeys_cons_some _ _ (lookupA_setA_self _ _ _)]
          rw [ih _ ks' h1' h2']
          cases n with
          | file i =>
            rw [@childOrDir_none (normalizeForLookup part) ((VfsNode.file i).childrenOf) rfl]
            rw [resolveKeys_emptyDir hks', resolveKeys_file i (by simp)]
          | dir cs ds =>
            simp only [VfsNode.childrenOf]
            cases hc : lookupA (normalizeForLookup part) cs with
            | none =>
              rw [childOrDir_none hc, resolveKeys_emptyDir hks',
                resolveKeys_cons_none _ _ hc]
            | some c =>
              cases c with
              | file j =>
                rw [childOrDir_file hc, resolveKeys_emptyDir hks',
                  resolveKeys_cons_some _ _ hc, resolveKeys_file j hks']
              | dir cs2 ds2 =>
                rw [childOrDir_dir hc, resolveKeys_cons_some _ _ hc]
        · simp only [VfsNode.insertDirectory, if_neg hp]
          have hlk : ∀ x, lookupA k (setA (normalizeForLookup part) x
              n.childrenOf) = lookupA k n.childrenOf := by
            intro x; rw [lookupA_setA, if_neg hk]
          cases n with
          | file i =>
            have hnone : lookupA k (VfsNode.file i).childrenOf = none := rfl
            rw [resolveKeys_cons_none _ _ ((hlk _).trans hnone),
              resolveKeys_file i (by simp)]
          | dir cs ds =>
            cases hc : lookupA k cs with
            | none =>
              rw [resolveKeys_cons_none _ _ ((hlk _).trans hc),
                resolveKeys_cons_none _ _ hc]
            | some c =>
              rw [resolveKeys_cons_some _ _ ((hlk _).trans hc),
                resolveKeys_cons_some _ _ hc]

/-! ## Layer composition (`buildDataDirVfs` and friends) -/

/-- A single tree insertion performed while composing layers. -/
inductive LayerOp where
  | insFile (comps : List String) (info : VfsFileInfo)
  | insDir (comps : List String)
deriving DecidableEq

def applyOp (n : VfsNode) : LayerOp → VfsNode
  | .insFile comps info => n.insertFile comps info
  | .insDir comps => n.insertDirectory comps

def applyOps (ops : List LayerOp) (n : VfsNode) : VfsNode :=
  ops.foldl applyOp n

def opEffKeys : LayerOp → List String
  | .insFile comps _ => effKeys comps
  | .insDir comps => effKeys comps

/-- An operation does not touch the key path `ks` when its own key path
neither extends `ks` nor is an initial segment of it. -/
def untouchedOp (op : LayerOp) (ks : List String) : Bool :=
  !(leads (opEffKeys op) ks) && !(leads ks (opEffKeys op))

theorem resolveKeys_applyOp_frame (op : LayerOp) (n : VfsNode) (ks : List String)
    (h : untouchedOp op ks = true) :
    resolveKeys ks (applyOp n op) = resolveKeys ks n := by
  cases op with
  | insFile comps info =>
    simp only [untouchedOp, opEffKeys, Bool.and_eq_true, Bool.not_eq_true'] at h
    exact resolveKeys_insertFile_frame comps info n ks h.1 h.2
  | insDir comps =>
    simp only [untouchedOp, opEffKeys, Bool.and_eq_true, Bool.not_eq_true'] at h
    exact resolveKeys_insertDirectory_frame comps n ks h.1 h.2

theorem resolveKeys_applyOps_frame (ops : List LayerOp) :
    ∀ (n : VfsNode) (ks : List String),
    ops.all (fun op => untouchedOp op ks) = true →
    resolveKeys ks (applyOps ops n) = resolveKeys ks n := by
  induction ops with
  | nil => intro n ks _; rfl
  | cons op ops ih =>
    intro n ks h
    rw [List.all_cons, Bool.and_eq_true] at h
    have hstep : applyOps (op :: ops) n = applyOps ops (applyOp n op) := rfl
    rw [hstep, ih _ ks h.2, resolveKeys_applyOp_frame op n ks h.1]

theorem applyOps_append (a b : List LayerOp) (n : VfsNode) :
    applyOps (a ++ b) n = applyOps b (applyOps a n) := by
  rw [applyOps, applyOps, applyOps, List.foldl_append]

/-- Last write wins: if an operation list contains a file insertion at a
path and no later operation touches that path, the composed tree resolves
the path to the inserted file reference, whatever came before. -/
theorem resolveKeys_applyOps_last (pre post : List LayerOp) (comps : List String)
    (info : VfsFileInfo) (n : VfsNode)
    (hne : comps ≠ []) (hall : allNE comps = true)
    (hpost : post.all (fun op => untouchedOp op (comps.map normalizeForLookup)) = true) :
    resolveKeys (comps.map normalizeForLookup)
      (applyOps (pre ++ LayerOp.insFile comps info :: post) n) =
      some (VfsNode.file info) := by
  have happ : applyOps (pre ++ LayerOp.insFile comps info :: post) n =
      applyOps post (applyOp (applyOps pre n) (LayerOp.insFile comps info)) := by
    rw [applyOps_append]; rfl
  rw [happ, resolveKeys_applyOps_frame post _ _ hpost]
  exact resolveKeys_insertFile_self comps info _ hne hall

/-- Cached entry produced by the one-shot base scan (`CachedBaseFile` in
`vfstree.h`). -/
structure CachedBaseFile where
  relative_path : String
  size : Nat
  mtime : Nat
  is_dir : Bool
deriving DecidableEq

/-- One entry yielded by `fs::recursive_directory_iterator` during a live
walk of a mod or overwrite directory.  `relOk` models the error code of
`fs::relative`; `mtimeOk` models the error code of `last_write_time`;
unreadable entries never appear (the iterator skips them,
`skip_permission_denied`). -/
structure WalkEntry where
  rel : String
  relOk : Bool
  isDir : Bool
  isRegular : Bool
  absPath : String
  size : Nat
  mtime : Nat
  mtimeOk : Bool
deriving DecidableEq

/-- Loop body of `addDirectoryToTree` in `vfstree.cpp` for one walked
entry. -/
def addEntryToTree (origin : String) (pfx : List String) (isBacking : Bool)
    (tree : VfsTree) (e : WalkEntry) : VfsTree :=
  if !e.relOk || e.rel = "" then tree
  else if e.rel = "meta.ini" then tree
  else
    let components := pfx ++ splitPath e.rel
    if e.isDir then
      ⟨tree.root.insertDirectory components, tree.file_count, tree.dir_count + 1⟩
    else if !e.isRegular then tree
    else
      ⟨tree.root.insertFile components
        ⟨e.absPath, e.size, (if e.mtimeOk then e.mtime else 0), origin, isBacking⟩,
        tree.file_count + 1, tree.dir_count⟩

/-- Model of `addDirectoryToTree`: fold the walked entries into the tree.
A missing walk directory yields the empty entry list. -/
def addDirectoryToTree (tree : VfsTree) (entries : List WalkEntry) (origin : String)
    (pfx : List String) (isBacking : Bool) : VfsTree :=
  entries.foldl (addEntryToTree origin pfx isBacking) tree

/-- Loop body of the base-cache layer of `buildDataDirVfs`: directories are
inserted as directories, files with the cached relative path as `real_path`
and `is_backing = true`. -/
def baseStep (tree : VfsTree) (cf : CachedBaseFile) : VfsTree :=
  if cf.is_dir then
    ⟨tree.root.insertDirectory (splitPath cf.relative_path),
      tree.file_count, tree.dir_count + 1⟩
  else
    ⟨tree.root.insertFile (splitPath cf.relative_path)
      ⟨cf.relative_path, cf.size, cf.mtime, "_base_game", true⟩,
      tree.file_count + 1, tree.dir_count⟩

/-- Model of `buildDataDirVfs` from `vfstree.cpp`: base cache first, then
the overwrite directory walk, then the mods in controller order.  The
`data_dir` argument is carried to mirror the C++ signature; the C++ body
does not use it. -/
def buildDataDirVfs (cached_files : List CachedBaseFile) (data_dir : String)
    (mods : List (String × List WalkEntry)) (overwriteEntries : List WalkEntry) :
    VfsTree :=
  let t0 : VfsTree := cached_files.foldl baseStep ⟨VfsNode.dir [] [], 0, 1⟩
  let t1 := addDirectoryToTree t0 overwriteEntries "Overwrite" [] false
  mods.foldl (fun tree m => addDirectoryToTree tree m.2 m.1 [] false) t1

/-- The insertion a cached base entry performs. -/
def cachedOp (cf : CachedBaseFile) : LayerOp :=
  if cf.is_dir then .insDir (splitPath cf.relative_path)
  else .insFile (splitPath cf.relative_path)
    ⟨cf.relative_path, cf.size, cf.mtime, "_base_game", true⟩

/-- The insertion a walked entry performs, if any. -/
def walkOp (origin : String) (pfx : List String) (isBacking : Bool)
    (e : WalkEntry) : Option LayerOp :=
  if !e.relOk || e.rel = "" then none
  else if e.rel = "meta.ini" then none
  else if e.isDir then some (.insDir (pfx ++ splitPath e.rel))
  else if !e.isRegular then none
  else some (.insFile (pfx ++ splitPath e.rel)
    ⟨e.absPath, e.size, (if e.mtimeOk then e.mtime else 0), origin, isBacking⟩)

def walkOps (entries : List WalkEntry) (origin : String) (pfx : List String)
    (isBacking : Bool) : List LayerOp :=
  entries.filterMap (walkOp origin pfx isBacking)

/-- The full insertion sequence of `buildDataDirVfs`, in layer order:
base game, then overwrite, then mods in controller order. -/
def layerOps (cached_files : List CachedBaseFile)
    (mods : List (String × List WalkEntry)) (overwriteEntries : List WalkEntry) :
    List LayerOp :=
  cached_files.map cachedOp ++ walkOps overwriteEntries "Overwrite" [] false
    ++ (mods.map (fun m => walkOps m.2 m.1 [] false)).flatten

theorem baseStep_root (tree : VfsTree) (cf : CachedBaseFile) :
    (baseStep tree cf).root = applyOp tree.root (cachedOp cf) := by
  by_cases h : cf.is_dir <;> simp [baseStep, cachedOp, h, applyOp]

theorem foldl_baseStep_root (cached_files : List CachedBaseFile) :
    ∀ t : VfsTree, (cached_files.foldl baseStep t).root =
      applyOps (cached_files.map cachedOp) t.root := by
  induction cached_files with
  | nil => intro t; rfl
  | cons cf rest ih =>
    intro t
    rw [List.foldl_cons, List.map_cons]
    have hstep : applyOps (cachedOp cf :: rest.map cachedOp) t.root =
      applyOps (rest.map cachedOp) (applyOp t.root (cachedOp cf)) := rfl
    rw [hstep, ih (baseStep t cf), baseStep_root]

theorem addEntryToTree_root (origin : String) (pfx : List String) (isBacking : Bool)
    (tree : VfsTree) (e : WalkEntry) :
    (addEntryToTree origin pfx isBacking tree e).root =
      match walkOp origin pfx isBacking e with
      | none => tree.root
      | some op => applyOp tree.root op := by
  by_cases h1 : !e.relOk || e.rel = ""
  · simp [addEntryToTree, walkOp, h1]
  · by_cases h2 : e.rel = "meta.ini"
    · simp [addEntryToTree, walkOp, h1, h2]
    · by_cases h3 : e.isDir
      · simp [addEntryToTree, walkOp, h1, h2, h3, applyOp]
      · by_cases h4 : !e.isRegular
        · simp [addEntryToTree, walkOp, h1, h2, h3, h4]
        · simp [addEntryToTree, walkOp, h1, h2, h3, h4, applyOp]

theorem addDirectoryToTree_root (entries : List WalkEntry) (origin : String)
    (pfx : List String) (isBacking : Bool) :
    ∀ tree : VfsTree, (addDirectoryToTree tree entries origin pfx isBacking).root =
      applyOps (walkOps entries origin pfx isBacking) tree.root := by
  induction entries with
  | nil => intro tree; rfl
  | cons e rest ih =>
    intro tree
    rw [addDirectoryToTree, List.foldl_cons]
    have hrest : (rest.foldl (addEntryToTree origin pfx isBacking)
        (addEntryToTree origin pfx isBacking tree e)).root =
        applyOps (walkOps rest origin pfx isBacking)
          (addEntryToTree origin pfx isBacking tree e).root := ih _
    rw [hrest, addEntryToTree_root]
    cases hop : walkOp origin pfx isBacking e with
    | none =>
      simp only [walkOps, List.filterMap_cons, hop]
    | some op =>
      simp only [walkOps, List.filterMap_cons, hop]
      rfl

theorem buildDataDirVfs_root_eq (cached_files : List CachedBaseFile)
    (data_dir : String) (mods : List (String × List WalkEntry))
    (overwriteEntries : List WalkEntry) :
    (buildDataDirVfs cached_files data_dir mods overwriteEntries).root =
      applyOps (layerOps cached_files mods overwriteEntries) (VfsNode.dir [] []) := by
  rw [buildDataDirVfs, layerOps, applyOps_append, applyOps_append]
  have hmods : ∀ (ms : List (String × List WalkEntry)) (t : VfsTree),
      (ms.foldl (fun tree m => addDirectoryToTree tree m.2 m.1 [] false) t).root =
      applyOps ((ms.map (fun m => walkOps m.2 m.1 [] false)).flatten) t.root := by
    intro ms
    induction ms with
    | nil => intro t; rfl
    | cons m rest ih =>
      intro t
      rw [List.foldl_cons, List.map_cons, List.flatten_cons, applyOps_append]
      rw [ih (addDirectoryToTree t m.2 m.1 [] false), addDirectoryToTree_root]
  rw [hmods, addDirectoryToTree_root, foldl_baseStep_root]

theorem mkRev_ne_empty {cur : List Char} (hc : cur ≠ []) :
    String.mk cur.reverse ≠ "" := by
  intro he
  have hdata : cur.reverse = [] := congrArg String.data he
  exact hc (List.reverse_eq_nil_iff.mp hdata)

/-- `splitPath` never produces empty components. -/
theorem splitPathGo_allNE : ∀ (l cur : List Char), allNE (splitPathGo l cur) = true := by
  intro l
  induction l with
  | nil =>
    intro cur
    by_cases hc : cur = []
    · simp [splitPathGo, hc, allNE]
    · simp [splitPathGo, hc, allNE, mkRev_ne_empty hc]
  | cons c rest ih =>
    intro cur
    by_cases hcs : c = '/'
    · by_cases hc : cur = []
      · simp [splitPathGo, hcs, hc, ih]
      · simp [splitPathGo, hcs, hc, allNE, mkRev_ne_empty hc, ih]
    · simp only [splitPathGo, if_neg hcs]
      exact ih (c :: cur)

theorem splitPath_allNE (s : String) : allNE (splitPath s) = true :=
  splitPathGo_allNE _ []

/-! ## Claim C1 -/

/-- C1: Layer precedence in tree composition.  `buildDataDirVfs` inserts
every source in the order base game, then overwrite, then mods in
controller order (`buildDataDirVfs_root_eq` exhibits the composition as the
fold of `layerOps`, which lists exactly those insertions in that order),
and a later insertion at the same normalized path replaces the earlier
node; hence when the flattened insertion sequence contains a file
insertion at a path that no later insertion touches — in particular when
the highest-precedence layer provides the path — `resolve` returns that
layer's file reference, whatever lower-precedence layers provided. -/
theorem buildDataDirVfs_layer_precedence
    (cached_files : List CachedBaseFile) (data_dir : String)
    (mods : List (String × List WalkEntry)) (overwriteEntries : List WalkEntry)
    (pre post : List LayerOp) (comps p : List String) (info : VfsFileInfo)
    (hops : layerOps cached_files mods overwriteEntries =
      pre ++ LayerOp.insFile comps info :: post)
    (hne : comps ≠ []) (hall : allNE comps = true)
    (hkeys : effKeys p = comps.map normalizeForLookup)
    (hpost : post.all (fun op => untouchedOp op (comps.map normalizeForLookup)) = true) :
    (buildDataDirVfs cached_files data_dir mods overwriteEntries).root.resolve p =
      some (VfsNode.file info) ∧
    (buildDataDirVfs cached_files data_dir mods overwriteEntries).root =
      applyOps (layerOps cached_files mods overwriteEntries) (VfsNode.dir [] []) := by
  constructor
  · rw [resolve_eq_resolveKeys, hkeys, buildDataDirVfs_root_eq, hops]
    exact resolveKeys_applyOps_last pre post comps info _ hne hall hpost
  · exact buildDataDirVfs_root_eq cached_files data_dir mods overwriteEntries

/-- Witness for C1: the base game, the overwrite directory and mod `A` all
provide `Meshes/x.nif`; resolution (through a case-variant query) returns
mod `A`'s file reference. -/
theorem buildDataDirVfs_layer_precedence_witness :
    (buildDataDirVfs
        [⟨"Meshes/x.nif", 10, 0, false⟩]
        "/game/Data"
        [("A", [⟨"Meshes/x.nif", true, false, true, "/mods/A/Meshes/x.nif", 7, 0, true⟩])]
        [⟨"Meshes/x.nif", true, false, true, "/ow/Meshes/x.nif", 8, 0, true⟩]).root.resolve
      ["MESHES", "X.NIF"] =
      some (VfsNode.file ⟨"/mods/A/Meshes/x.nif", 7, 0, "A", false⟩) ∧
    (buildDataDirVfs
        [⟨"Meshes/x.nif", 10, 0, false⟩]
        "/game/Data"
        [("A", [⟨"Meshes/x.nif", true, false, true, "/mods/A/Meshes/x.nif", 7, 0, true⟩])]
        [⟨"Meshes/x.nif", true, false, true, "/ow/Meshes/x.nif", 8, 0, true⟩]).root =
      applyOps (layerOps
        [⟨"Meshes/x.nif", 10, 0, false⟩]
        [("A", [⟨"Meshes/x.nif", true, false, true, "/mods/A/Meshes/x.nif", 7, 0, true⟩])]
        [⟨"Meshes/x.nif", true, false, true, "/ow/Meshes/x.nif", 8, 0, true⟩])
        (VfsNode.dir [] []) :=
  buildDataDirVfs_layer_precedence
    [⟨"Meshes/x.nif", 10, 0, false⟩]
    "/game/Data"
    [("A", [⟨"Meshes/x.nif", true, false, true, "/mods/A/Meshes/x.nif", 7, 0, true⟩])]
    [⟨"Meshes/x.nif", true, false, true, "/ow/Meshes/x.nif", 8, 0, true⟩]
    [LayerOp.insFile ["Meshes", "x.nif"] ⟨"Meshes/x.nif", 10, 0, "_base_game", true⟩,
      LayerOp.insFile ["Meshes", "x.nif"] ⟨"/ow/Meshes/x.nif", 8, 0, "Overwrite", false⟩]
    []
    ["Meshes", "x.nif"] ["MESHES", "X.NIF"]
    ⟨"/mods/A/Meshes/x.nif", 7, 0, "A", false⟩
    (by decide) (by decide) (by decide) (by decide) (by decide)

/-! ## Claim C2: case- and slash-insensitive resolution -/

theorem toNat_ofNat_valid {n : Nat} (h : n.isValidChar) : (Char.ofNat n).toNat = n := by
  unfold Char.ofNat
  rw [dif_pos h]
  rfl

theorem toLower_toNat (c : Char) :
    c.toLower.toNat = if 65 ≤ c.toNat ∧ c.toNat ≤ 90 then c.toNat + 32 else c.toNat := by
  unfold Char.toLower
  by_cases h : c.toNat ≥ 65 ∧ c.toNat ≤ 90
  · rw [if_pos h, if_pos h]
    exact toNat_ofNat_valid (Or.inl (by omega))
  · rw [if_neg h, if_neg h]

theorem char_eq_of_toNat_eq {c d : Char} (h : c.toNat = d.toNat) : c = d := by
  have h2 := congrArg Char.ofNat h
  rwa [Char.ofNat_toNat, Char.ofNat_toNat] at h2

theorem toLower_idem (c : Char) : c.toLower.toLower = c.toLower := by
  have h1 := toLower_toNat c
  have h2 := toLower_toNat c.toLower
  apply char_eq_of_toNat_eq
  by_cases h : 65 ≤ c.toNat ∧ c.toNat ≤ 90
  · rw [if_pos h] at h1
    rw [if_neg (by omega)] at h2
    exact h2
  · rw [if_neg h] at h1
    rw [if_neg (by omega)] at h2
    exact h2

theorem normChar_idem (c : Char) : normChar (normChar c) = normChar c := by
  by_cases h : c.toLower = '\\'
  · have h1 : normChar c = '/' := by simp [normChar, h]
    rw [h1]
    decide
  · have h1 : normChar c = c.toLower := by simp [normChar, h]
    rw [h1]
    simp [normChar, toLower_idem, h]

theorem normalizeForLookup_idem (s : String) :
    normalizeForLookup (normalizeForLookup s) = normalizeForLookup s := by
  unfold normalizeForLookup
  congr 1
  rw [show (String.mk (s.data.map normChar)).data = s.data.map normChar from rfl,
    List.map_map]
  exact List.map_congr_left (fun c _ => normChar_idem c)

theorem normalizeForLookup_eq_empty_iff (s : String) :
    normalizeForLookup s = "" ↔ s = "" := by
  constructor
  · intro h
    have hdata : s.data.map normChar = [] := congrArg String.data h
    have hnil : s.data = [] := List.map_eq_nil_iff.mp hdata
    cases s with
    | mk l =>
      rw [show ("" : String) = String.mk [] from rfl]
      exact congrArg String.mk hnil
  · intro h; subst h; rfl

theorem effKeys_map_norm (comps : List String) :
    effKeys (comps.map normalizeForLookup) = effKeys comps := by
  induction comps with
  | nil => rfl
  | cons c rest ih =>
    by_cases hc : c = ""
    · subst hc
      rw [List.map_cons, effKeys, if_pos (by rfl), effKeys, if_pos rfl]
      exact ih
    · rw [List.map_cons, effKeys,
        if_neg (fun hh => hc ((normalizeForLookup_eq_empty_iff c).mp hh)),
        effKeys, if_neg hc, normalizeForLookup_idem, ih]

/-- Every lookup normalizes first and the stored keys are already the
normalized forms, so resolving with pre-normalized components is the same
as resolving with the raw components. -/
theorem resolve_map_norm (u : VfsNode) (comps : List String) :
    u.resolve comps = u.resolve (comps.map normalizeForLookup) := by
  rw [resolve_eq_resolveKeys, resolve_eq_resolveKeys, effKeys_map_norm]

def asciiAlphaB (c : Char) : Bool :=
  (65 ≤ c.toNat && c.toNat ≤ 90) || (97 ≤ c.toNat && c.toNat ≤ 122)

def slashB (c : Char) : Bool := c == '/' || c == '\\'

/-- Two characters differ only by ASCII letter case or by slash
direction. -/
def charCaseSlash (c d : Char) : Bool :=
  (c == d) || (asciiAlphaB c && asciiAlphaB d && (c.toLower == d.toLower)) ||
    (slashB c && slashB d)

/-- Two byte strings differ only in ASCII letter case or slash direction. -/
def caseSlashEquiv (p q : String) : Bool :=
  (p.data.length == q.data.length) &&
    (p.data.zip q.data).all (fun cd => charCaseSlash cd.1 cd.2)

theorem alpha_ne_slash {c : Char} (h : asciiAlphaB c = true) :
    c ≠ '/' ∧ c ≠ '\\' := by
  constructor
  · intro he; subst he; exact absurd h (by decide)
  · intro he; subst he; exact absurd h (by decide)

theorem toLower_ne_backslash {c : Char} (h : asciiAlphaB c = true) :
    c.toLower ≠ '\\' := by
  intro he
  have h1 := toLower_toNat c
  rw [he] at h1
  have h92 : ('\\' : Char).toNat = 92 := by decide
  rw [h92] at h1
  simp only [asciiAlphaB, Bool.or_eq_true, Bool.and_eq_true, decide_eq_true_eq] at h
  by_cases hcase : 65 ≤ c.toNat ∧ c.toNat ≤ 90
  · rw [if_pos hcase] at h1; omega
  · rw [if_neg hcase] at h1
    rcases h with h | h <;> omega

theorem slash_rep {c : Char} (h : slashB c = true) : repSlash c = '/' := by
  simp only [slashB, Bool.or_eq_true, beq_iff_eq] at h
  rcases h with h | h <;> subst h <;> decide

theorem charCaseSlash_key {c d : Char} (h : charCaseSlash c d = true) :
    (repSlash c = '/' ∧ repSlash d = '/') ∨
    (repSlash c ≠ '/' ∧ repSlash d ≠ '/' ∧
      normChar (repSlash c) = normChar (repSlash d)) := by
  simp only [charCaseSlash, Bool.or_eq_true, Bool.and_eq_true, beq_iff_eq] at h
  rcases h with (h | h) | h
  · subst h
    by_cases hs : repSlash c = '/'
    · exact Or.inl ⟨hs, hs⟩
    · exact Or.inr ⟨hs, hs, rfl⟩
  · obtain ⟨⟨hc, hd⟩, hl⟩ := h
    have hc2 := alpha_ne_slash hc
    have hd2 := alpha_ne_slash hd
    have hrc : repSlash c = c := by rw [repSlash, if_neg hc2.2]
    have hrd : repSlash d = d := by rw [repSlash, if_neg hd2.2]
    rw [hrc, hrd]
    refine Or.inr ⟨hc2.1, hd2.1, ?_⟩
    simp [normChar, toLower_ne_backslash hc, toLower_ne_backslash hd, hl]
  · exact Or.inl ⟨slash_rep h.1, slash_rep h.2⟩

theorem forall2_rel2 {l1 l2 : List Char}
    (h : List.Forall₂ (fun c d => charCaseSlash c d = true) l1 l2) :
    List.Forall₂ (fun c d =>
        (c = '/' ∧ d = '/') ∨ (c ≠ '/' ∧ d ≠ '/' ∧ normChar c = normChar d))
      (l1.map repSlash) (l2.map repSlash) := by
  induction h with
  | nil => constructor
  | cons hcd htail ih =>
    simp only [List.map_cons]
    exact List.Forall₂.cons (charCaseSlash_key hcd) ih

theorem mkRev_norm_eq {cur1 cur2 : List Char}
    (hcur : cur1.map normChar = cur2.map normChar) :
    normalizeForLookup (String.mk cur1.reverse) =
      normalizeForLookup (String.mk cur2.reverse) := by
  unfold normalizeForLookup
  congr 1
  rw [show (String.mk cur1.reverse).data = cur1.reverse from rfl,
    show (String.mk cur2.reverse).data = cur2.reverse from rfl,
    List.map_reverse, List.map_reverse, hcur]

theorem splitPathGo_norm_eq {l1 l2 : List Char}
    (h : List.Forall₂ (fun c d =>
        (c = '/' ∧ d = '/') ∨ (c ≠ '/' ∧ d ≠ '/' ∧ normChar c = normChar d)) l1 l2) :
    ∀ {cur1 cur2 : List Char}, cur1.map normChar = cur2.map normChar →
    (splitPathGo l1 cur1).map normalizeForLookup =
      (splitPathGo l2 cur2).map normalizeForLookup := by
  induction h with
  | nil =>
    intro cur1 cur2 hcur
    by_cases hc : cur1 = []
    · have hc2 : cur2 = [] := by
        subst hc; exact (List.map_eq_nil_iff.mp hcur.symm)
      simp [splitPathGo, hc, hc2]
    · have hc2 : cur2 ≠ [] := by
        intro he; subst he; exact hc (List.map_eq_nil_iff.mp hcur)
      simp only [splitPathGo, if_neg hc, if_neg hc2, List.map]
      rw [mkRev_norm_eq hcur]
  | cons hcd htail ih =>
    intro cur1 cur2 hcur
    rcases hcd with ⟨ha, hb⟩ | ⟨ha, hb, hn⟩
    · subst ha; subst hb
      by_cases hc : cur1 = []
      · have hc2 : cur2 = [] := by
          subst hc; exact (List.map_eq_nil_iff.mp hcur.symm)
        simp only [splitPathGo, if_pos rfl, hc, hc2, if_pos rfl]
        exact ih rfl
      · have hc2 : cur2 ≠ [] := by
          intro he; subst he; exact hc (List.map_eq_nil_iff.mp hcur)
        simp only [splitPathGo, if_pos rfl, if_neg hc, if_neg hc2, List.map]
        rw [mkRev_norm_eq hcur, ih rfl]
    · simp only [splitPathGo, if_neg ha, if_neg hb]
      exact ih (by simp only [List.map_cons, hn, hcur])

theorem keysOf_eq_of_caseSlashEquiv {p q : String} (h : caseSlashEquiv p q = true) :
    (splitPath p).map normalizeForLookup = (splitPath q).map normalizeForLookup := by
  rw [caseSlashEquiv, Bool.and_eq_true, List.all_eq_true] at h
  have hlen : p.data.length = q.data.length := beq_iff_eq.mp h.1
  have hf : List.Forall₂ (fun c d => charCaseSlash c d = true) p.data q.data := by
    rw [List.forall₂_iff_zip]
    exact ⟨hlen, fun hab => h.2 _ hab⟩
  exact splitPathGo_norm_eq (forall2_rel2 hf) rfl

/-- C2: Case- and slash-insensitive resolution.  First conjunct: two
relative paths that differ only in ASCII letter case or in slash direction
resolve to the same node (or both to none) in every tree.  Second
conjunct: every lookup normalizes each component first and every stored
key is the normalized form, so pre-normalizing the query components does
not change the result of `resolve`. -/
theorem resolve_case_slash_insensitive (t u : VfsNode) (p q : String)
    (comps : List String) (h : caseSlashEquiv p q = true) :
    t.resolve (splitPath p) = t.resolve (splitPath q) ∧
    u.resolve comps = u.resolve (comps.map normalizeForLookup) := by
  constructor
  · rw [resolve_eq_resolveKeys, resolve_eq_resolveKeys,
      effKeys_of_allNE (splitPath_allNE p), effKeys_of_allNE (splitPath_allNE q),
      keysOf_eq_of_caseSlashEquiv h]
  · exact resolve_map_norm u comps

/-- Witness for C2 at a concrete tree and the concrete pair
`"Textures\A.DDS"` / `"textures/a.dds"`. -/
theorem resolve_case_slash_insensitive_witness :
    (((VfsNode.dir [] []).insertFile ["Textures", "a.dds"]
        ⟨"Textures/a.dds", 5, 0, "_base_game", true⟩).resolve
      (splitPath "Textures\\A.DDS") =
    ((VfsNode.dir [] []).insertFile ["Textures", "a.dds"]
        ⟨"Textures/a.dds", 5, 0, "_base_game", true⟩).resolve
      (splitPath "textures/a.dds")) ∧
    (((VfsNode.dir [] []).insertFile ["Textures", "a.dds"]
        ⟨"Textures/a.dds", 5, 0, "_base_game", true⟩).resolve ["TEXTURES"] =
    ((VfsNode.dir [] []).insertFile ["Textures", "a.dds"]
        ⟨"Textures/a.dds", 5, 0, "_base_game", true⟩).resolve
      (["TEXTURES"].map normalizeForLookup)) :=
  resolve_case_slash_insensitive
    ((VfsNode.dir [] []).insertFile ["Textures", "a.dds"]
      ⟨"Textures/a.dds", 5, 0, "_base_game", true⟩)
    ((VfsNode.dir [] []).insertFile ["Textures", "a.dds"]
      ⟨"Textures/a.dds", 5, 0, "_base_game", true⟩)
    "Textures\\A.DDS" "textures/a.dds" ["TEXTURES"] (by decide)

/-! ## Claim C10: totality and shape-clobbering of the tree edits -/

theorem allNE_append_left {p r : List String} (h : allNE (p ++ r) = true) :
    allNE p = true := by
  induction p with
  | nil => rfl
  | cons c rest ih =>
    rw [List.cons_append, allNE] at h
    rw [allNE]
    by_cases hc : c = ""
    · rw [if_pos hc] at h; cases h
    · rw [if_neg hc] at h
      rw [if_neg hc]
      exact ih h

/-- Along any resolvable key path, every proper initial segment resolves to
a directory node.  In the C++ representation this is the invariant that a
node with `is_directory == false` never carries children; the
two-constructor embedding encodes exactly that exclusivity, and this
theorem expresses it through resolution. -/
theorem resolveKeys_initial_dir (ks : List String) :
    ∀ (u : VfsNode) (k : String) (ks2 : List String) (x : VfsNode),
    resolveKeys (ks ++ k :: ks2) u = some x →
    ∃ cs ds, resolveKeys ks u = some (VfsNode.dir cs ds) := by
  induction ks with
  | nil =>
    intro u k ks2 x h
    cases u with
    | file i => cases h
    | dir cs ds => exact ⟨cs, ds, rfl⟩
  | cons k0 ks ih =>
    intro u k ks2 x h
    cases u with
    | file i => cases h
    | dir cs ds =>
      rw [List.cons_append] at h
      cases hc : lookupA k0 cs with
      | none =>
        rw [resolveKeys_cons_none _ _ hc] at h
        cases h
      | some c =>
        rw [resolveKeys_cons_some _ _ hc] at h
        obtain ⟨cs2, ds2, hres⟩ := ih c k ks2 x h
        exact ⟨cs2, ds2, by rw [resolveKeys_cons_some _ _ hc]; exact hres⟩

/-- C10: tree insertions are total and clobber conflicting shapes while
keeping the tree well-formed.  `insertFile` and `insertDirectory` are total
functions (they never fail).  First conjunct: a terminal `insertFile`
replaces whatever node was at the path — also a directory, discarding its
subtree — by the new file node.  Second conjunct: `insertDirectory` leaves
a directory at its path.  Third conjunct: after `insertFile`, every proper
initial segment of the inserted path resolves to a directory, so an
intermediate component that was a file node has been converted into a
directory.  Fourth conjunct: in every tree of the model — hence after any
`insertFile`, `insertDirectory`, or `removeFromTree` — every non-terminal
node along every stored path is a directory. -/
theorem insert_total_clobber_wf
    (t u : VfsNode) (p q : List String) (c : String) (info : VfsFileInfo)
    (ks ks2 : List String) (k : String) (x : VfsNode)
    (comps : List String)
    (hdecomp : comps = p ++ c :: q)
    (hall : allNE comps = true)
    (hres : resolveKeys (ks ++ k :: ks2) u = some x) :
    (t.insertFile comps info).resolve comps = some (VfsNode.file info) ∧
    (∃ cs ds, (t.insertDirectory comps).resolve comps = some (VfsNode.dir cs ds)) ∧
    (∃ cs ds, (t.insertFile comps info).resolve p = some (VfsNode.dir cs ds)) ∧
    (∃ cs ds, resolveKeys ks u = some (VfsNode.dir cs ds)) := by
  have hne : comps ≠ [] := by
    rw [hdecomp]; intro he; cases p <;> cases he
  refine ⟨?_, ?_, ?_, ?_⟩
  · rw [resolve_eq_resolveKeys, effKeys_of_allNE hall]
    exact resolveKeys_insertFile_self comps info t hne hall
  · rw [resolve_eq_resolveKeys, effKeys_of_allNE hall]
    exact resolveKeys_insertDirectory_self comps t hne hall
  · have hfull : resolveKeys (comps.map normalizeForLookup) (t.insertFile comps info) =
        some (VfsNode.file info) :=
      resolveKeys_insertFile_self comps info t hne hall
    rw [hdecomp, List.map_append, List.map_cons] at hfull
    obtain ⟨cs, ds, hdir⟩ := resolveKeys_initial_dir (p.map normalizeForLookup) _ _ _ _ hfull
    refine ⟨cs, ds, ?_⟩
    have hallp : allNE p = true := allNE_append_left (hdecomp ▸ hall)
    rw [resolve_eq_resolveKeys, effKeys_of_allNE hallp, hdecomp]
    exact hdir
  · exact resolveKeys_initial_dir ks u k ks2 x hres

/-- Witness for C10: inserting the file `A/x` over a tree where `a` is a
file (shape conflict at the intermediate component) and where `a/x` would
sit below it; the well-formedness conjunct is instantiated at a two-level
tree. -/
theorem insert_total_clobber_wf_witness :
    ((VfsNode.file ⟨"old", 1, 0, "m", false⟩).insertFile ["A", "x"]
        ⟨"/mods/m/A/x", 2, 0, "m", false⟩).resolve ["A", "x"] =
      some (VfsNode.file ⟨"/mods/m/A/x", 2, 0, "m", false⟩) ∧
    (∃ cs ds, ((VfsNode.file ⟨"old", 1, 0, "m", false⟩).insertDirectory ["A", "x"]).resolve
        ["A", "x"] = some (VfsNode.dir cs ds)) ∧
    (∃ cs ds, ((VfsNode.file ⟨"old", 1, 0, "m", false⟩).insertFile ["A", "x"]
        ⟨"/mods/m/A/x", 2, 0, "m", false⟩).resolve ["A"] = some (VfsNode.dir cs ds)) ∧
    (∃ cs ds, resolveKeys ["d"]
        (VfsNode.dir [("d", VfsNode.dir [("f", VfsNode.file ⟨"r", 3, 0, "m", false⟩)]
          [("f", "f")])] [("d", "d")]) = some (VfsNode.dir cs ds)) :=
  insert_total_clobber_wf
    (VfsNode.file ⟨"old", 1, 0, "m", false⟩)
    (VfsNode.dir [("d", VfsNode.dir [("f", VfsNode.file ⟨"r", 3, 0, "m", false⟩)]
      [("f", "f")])] [("d", "d")])
    ["A"] [] "x" ⟨"/mods/m/A/x", 2, 0, "m", false⟩
    ["d"] [] "f" (VfsNode.file ⟨"r", 3, 0, "m", false⟩)
    ["A", "x"] (by decide) (by decide) rfl

/-! ## Inode table (`src/vfs/inodetable.cpp`) -/

structure InodeTable where
  pathToInode : List (String × Nat)
  inodeToPath : List (Nat × String)
  nextInode : Nat
deriving DecidableEq

/-- The constructor pre-registers the root with inode 1; the counter starts
at 2. -/
def InodeTable.init : InodeTable := ⟨[("", 1)], [(1, "")], 2⟩

/-- Model of `InodeTable::getOrCreate`. -/
def InodeTable.getOrCreate (t : InodeTable) (path : String) : InodeTable × Nat :=
  let key := normalizeForLookup path
  match lookupA key t.pathToInode with
  | some ino => (t, ino)
  | none =>
    (⟨emplaceA key t.nextInode t.pathToInode,
      emplaceA t.nextInode (canonicalizePath path) t.inodeToPath,
      t.nextInode + 1⟩, t.nextInode)

/-- Model of `InodeTable::getPath` (empty-string sentinel for an unknown
inode). -/
def InodeTable.getPath (t : InodeTable) (ino : Nat) : String :=
  match lookupA ino t.inodeToPath with
  | none => ""
  | some p => p

/-- Loop body of `InodeTable::rename` for one collected descendant entry:
skip the already-moved head entry, rewrite the key by swapping the prefix,
and rewrite the stored canonical path by the length of the old canonical
path. -/
def InodeTable.renameStep (oldKey newKey oldCanonical newCanonical oldPfx : String)
    (acc : InodeTable) (kv : String × Nat) : InodeTable :=
  if kv.1 = oldKey then acc
  else
    let sfx := strDrop oldPfx.length kv.1
    let nextKey := if newKey = "" then sfx else newKey ++ "/" ++ sfx
    ⟨emplaceA nextKey kv.2 (eraseA kv.1 acc.pathToInode),
      (match lookupA kv.2 acc.inodeToPath with
       | some c => setA kv.2 (newCanonical ++ strDrop oldCanonical.length c)
           acc.inodeToPath
       | none => acc.inodeToPath),
      acc.nextInode⟩

/-- First block of `InodeTable::rename`: move the entry for the old key —
an `emplace`, so a pre-existing binding of the new key silently wins — and
point the inode at the new canonical path. -/
def InodeTable.renameHead (t : InodeTable) (oldKey newKey newCanonical : String) :
    InodeTable :=
  match lookupA oldKey t.pathToInode with
  | some ino =>
    ⟨emplaceA newKey ino (eraseA oldKey t.pathToInode),
      setA ino newCanonical t.inodeToPath, t.nextInode⟩
  | none => t

/-- Model of `InodeTable::rename`: move the head entry, then collect every
entry whose key extends `oldKey ++ "/"` and rewrite it. -/
def InodeTable.rename (t : InodeTable) (old_path new_path : String) : InodeTable :=
  let oldCanonical := canonicalizePath old_path
  let newCanonical := canonicalizePath new_path
  let oldKey := normalizeForLookup oldCanonical
  let newKey := normalizeForLookup newCanonical
  let t1 := t.renameHead oldKey newKey newCanonical
  let oldPfx := if oldKey = "" then "" else oldKey ++ "/"
  let descendants := t1.pathToInode.filter
    (fun kv => (oldPfx == "") || strLeads oldPfx kv.1)
  descendants.foldl
    (InodeTable.renameStep oldKey newKey oldCanonical newCanonical oldPfx) t1

theorem renameHead_some {t : InodeTable} {oldKey : String} {ino0 : Nat}
    (newKey newCanonical : String)
    (h : lookupA oldKey t.pathToInode = some ino0) :
    t.renameHead oldKey newKey newCanonical =
      ⟨emplaceA newKey ino0 (eraseA oldKey t.pathToInode),
        setA ino0 newCanonical t.inodeToPath, t.nextInode⟩ := by
  simp [InodeTable.renameHead, h]

/-! String-level helper lemmas used for the rename proof. -/

theorem strExt {s t : String} (h : s.data = t.data) : s = t := by
  cases s; cases t; exact congrArg String.mk h

theorem strLeads_iff {p s : String} :
    strLeads p s = true ↔ leads p.data s.data = true := Iff.rfl

theorem leads_eq_of_length {α : Type} [DecidableEq α] {p q : List α}
    (h : leads p q = true) (hl : p.length = q.length) : p = q := by
  obtain ⟨r, hr⟩ := (leads_iff_append p q).1 h
  subst hr
  rw [List.length_append] at hl
  have : r = [] := List.eq_nil_of_length_eq_zero (by omega)
  simp [this]

theorem lookupA_eq_none_of_forall {κ α : Type} [DecidableEq κ] {k : κ}
    {m : List (κ × α)} (h : ∀ kv ∈ m, kv.1 ≠ k) : lookupA k m = none := by
  induction m with
  | nil => rfl
  | cons kv rest ih =>
    obtain ⟨k1, v1⟩ := kv
    rw [lookupA, if_neg (h (k1, v1) (List.mem_cons_self _ _))]
    exact ih (fun kv hkv => h kv (List.mem_cons_of_mem _ hkv))

theorem lookupA_append {κ α : Type} [DecidableEq κ] (k : κ) (l1 l2 : List (κ × α)) :
    lookupA k (l1 ++ l2) =
      match lookupA k l1 with
      | some v => some v
      | none => lookupA k l2 := by
  induction l1 with
  | nil => rfl
  | cons kv rest ih =>
    obtain ⟨k1, v1⟩ := kv
    by_cases h1 : k1 = k
    · simp [lookupA, h1]
    · simp only [List.cons_append, lookupA, if_neg h1]
      exact ih

theorem mem_eraseA {κ α : Type} [DecidableEq κ] {k k0 : κ} {v : α}
    {m : List (κ × α)} (h : (k, v) ∈ m) (hne : k ≠ k0) : (k, v) ∈ eraseA k0 m := by
  induction m with
  | nil => cases h
  | cons kv rest ih =>
    obtain ⟨k1, v1⟩ := kv
    rcases List.mem_cons.mp h with he | hm
    · obtain ⟨he1, he2⟩ := Prod.mk.injEq .. ▸ he
      subst he1; subst he2
      rw [eraseA, if_neg hne]
      exact List.mem_cons_self _ _
    · rw [eraseA]
      by_cases h1 : k1 = k0
      · rw [if_pos h1]; exact ih hm
      · rw [if_neg h1]; exact List.mem_cons_of_mem _ (ih hm)

theorem eraseA_sublist {κ α : Type} [DecidableEq κ] (k : κ) (m : List (κ × α)) :
    (eraseA k m).Sublist m := by
  induction m with
  | nil => exact List.Sublist.refl _
  | cons kv rest ih =>
    obtain ⟨k1, v1⟩ := kv
    rw [eraseA]
    by_cases h1 : k1 = k
    · rw [if_pos h1]; exact ih.cons _
    · rw [if_neg h1]; exact ih.cons₂ _

theorem nodup_values_key_eq {κ α : Type} [DecidableEq κ] [DecidableEq α]
    {m : List (κ × α)} (hnd : (m.map Prod.snd).Nodup) {k1 k2 : κ} {v : α}
    (h1 : (k1, v) ∈ m) (h2 : (k2, v) ∈ m) : k1 = k2 := by
  induction m with
  | nil => cases h1
  | cons kv rest ih =>
    rw [List.map_cons, List.nodup_cons] at hnd
    rcases List.mem_cons.mp h1 with he1 | hm1 <;> rcases List.mem_cons.mp h2 with he2 | hm2
    · have h12 : (k1, v) = (k2, v) := he1.trans he2.symm
      exact (Prod.mk.injEq .. ▸ h12).1
    · exfalso
      apply hnd.1
      have hv : kv.2 = v := by rw [← he1]
      have : ((k2, v) : κ × α).2 ∈ List.map Prod.snd rest :=
        List.mem_map_of_mem Prod.snd hm2
      rw [hv]
      exact this
    · exfalso
      apply hnd.1
      have hv : kv.2 = v := by rw [← he2]
      have : ((k1, v) : κ × α).2 ∈ List.map Prod.snd rest :=
        List.mem_map_of_mem Prod.snd hm1
      rw [hv]
      exact this
    · exact ih hnd.2 hm1 hm2
theorem leads_append_left {α : Type} [DecidableEq α] {p s t : List α}
    (h : leads p (s ++ t) = true) (hle : p.length ≤ s.length) : leads p s = true :=
  leads_trans_of_le h (leads_append s t) hle

theorem ne_of_length_ne {s t : String} (h : s.length ≠ t.length) : s ≠ t :=
  fun he => h (he ▸ rfl)

/-- The regions below `oldK ++ "/"` and `newK ++ "/"` are disjoint when
neither key extends the other. -/
theorem slash_region_disjoint {oldK newK : String} (honk : oldK ≠ newK)
    (hsep1 : strLeads (oldK ++ "/") newK = false)
    (hsep2 : strLeads (newK ++ "/") oldK = false)
    {s : String} (h1 : strLeads (oldK ++ "/") s = true)
    (h2 : strLeads (newK ++ "/") s = true) : False := by
  rw [strLeads] at h1 h2 hsep1 hsep2
  rcases Nat.le_total (oldK ++ "/").data.length (newK ++ "/").data.length with hle | hle
  · have hlead : leads (oldK ++ "/").data (newK ++ "/").data = true :=
      leads_trans_of_le h1 h2 hle
    by_cases heq : (oldK ++ "/").data.length = (newK ++ "/").data.length
    · have hdeq := leads_eq_of_length hlead heq
      have hkeq : oldK.data = newK.data := by
        rw [String.data_append, String.data_append] at hdeq
        have hl : oldK.data.length = newK.data.length := by
          have := congrArg List.length hdeq
          simp only [List.length_append] at this
          omega
        exact (List.append_inj hdeq hl).1
      exact honk (strExt hkeq)
    · have hlen : (oldK ++ "/").data.length ≤ newK.data.length := by
        have h2' : (newK ++ "/").data.length = newK.data.length + 1 := by
          rw [String.data_append, List.length_append]
          rfl
        omega
      have hlead2 : leads (oldK ++ "/").data newK.data = true := by
        rw [String.data_append newK "/"] at hlead
        exact leads_append_left hlead hlen
      rw [hlead2] at hsep1
      cases hsep1
  · have hlead : leads (newK ++ "/").data (oldK ++ "/").data = true :=
      leads_trans_of_le h2 h1 hle
    by_cases heq : (newK ++ "/").data.length = (oldK ++ "/").data.length
    · have hdeq := leads_eq_of_length hlead heq
      have hkeq : newK.data = oldK.data := by
        rw [String.data_append, String.data_append] at hdeq
        have hl : newK.data.length = oldK.data.length := by
          have := congrArg List.length hdeq
          simp only [List.length_append] at this
          omega
        exact (List.append_inj hdeq hl).1
      exact honk (strExt hkeq.symm)
    · have hlen : (newK ++ "/").data.length ≤ oldK.data.length := by
        have h2' : (oldK ++ "/").data.length = oldK.data.length + 1 := by
          rw [String.data_append, List.length_append]
          rfl
        omega
      have hlead2 : leads (newK ++ "/").data oldK.data = true := by
        rw [String.data_append oldK "/"] at hlead
        exact leads_append_left hlead hlen
      rw [hlead2] at hsep2
      cases hsep2

/-- Key rewriting in `InodeTable::rename` is injective on the renamed
subtree. -/
theorem nk_inj {oldK newK s1 s2 : String}
    (h1 : strLeads (oldK ++ "/") s1 = true) (h2 : strLeads (oldK ++ "/") s2 = true)
    (he : newK ++ "/" ++ strDrop (oldK ++ "/").length s1 =
          newK ++ "/" ++ strDrop (oldK ++ "/").length s2) : s1 = s2 := by
  obtain ⟨r1, hr1⟩ := (leads_iff_append _ _).1 h1
  obtain ⟨r2, hr2⟩ := (leads_iff_append _ _).1 h2
  have hd1 : (strDrop (oldK ++ "/").length s1).data = r1 := by
    show s1.data.drop (oldK ++ "/").length = r1
    rw [hr1]
    exact List.drop_left _ _
  have hd2 : (strDrop (oldK ++ "/").length s2).data = r2 := by
    show s2.data.drop (oldK ++ "/").length = r2
    rw [hr2]
    exact List.drop_left _ _
  have hdata := congrArg String.data he
  simp only [String.data_append] at hdata
  rw [hd1, hd2] at hdata
  have hr : r1 = r2 := List.append_cancel_left hdata
  apply strExt
  rw [hr1, hr2, hr]

/-- The rewritten key lies in the region below `newK ++ "/"`. -/
theorem nk_region (oldK newK s : String) :
    strLeads (newK ++ "/") (newK ++ "/" ++ strDrop (oldK ++ "/").length s) = true := by
  rw [strLeads]
  simp only [String.data_append]
  exact leads_append _ _

theorem nk_ne_newK (oldK newK s : String) :
    newK ++ "/" ++ strDrop (oldK ++ "/").length s ≠ newK := by
  apply ne_of_length_ne
  rw [String.length_append, String.length_append]
  have : ("/" : String).length = 1 := rfl
  omega

theorem key_length_lt_of_leads {a s : String} (h : strLeads (a ++ "/") s = true) :
    a.length < s.length := by
  have := leads_length_le h
  have hl : (a ++ "/").data.length = a.data.length + 1 := by
    rw [String.data_append, List.length_append]
    rfl
  show a.data.length < s.data.length
  omega

/-- One rewriting step leaves `pathToInode` unchanged at any key that is
neither the erased key nor the inserted key. -/
theorem renameStep_path_frame (oldK newK oldC newC : String) (hnewk : newK ≠ "")
    (acc : InodeTable) (kv : String × Nat) (q : String)
    (hq1 : kv.1 ≠ q)
    (hq2 : newK ++ "/" ++ strDrop (oldK ++ "/").length kv.1 ≠ q) :
    lookupA q (InodeTable.renameStep oldK newK oldC newC (oldK ++ "/") acc kv).pathToInode =
      lookupA q acc.pathToInode := by
  by_cases hkk : kv.1 = oldK
  · simp [InodeTable.renameStep, hkk]
  · simp only [InodeTable.renameStep, if_neg hkk, if_neg hnewk]
    rw [lookupA_emplaceA]
    have herase : lookupA q (eraseA kv.1 acc.pathToInode) = lookupA q acc.pathToInode := by
      rw [lookupA_eraseA, if_neg (fun hh => hq1 hh.symm)]
    by_cases hs : (lookupA (newK ++ "/" ++ strDrop (oldK ++ "/").length kv.1)
        (eraseA kv.1 acc.pathToInode)).isSome
    · rw [if_pos hs]
      exact herase
    · rw [if_neg hs, if_neg (fun hh => hq2 hh.symm)]
      exact herase

theorem renameFold_path_frame (oldK newK oldC newC : String) (hnewk : newK ≠ "")
    (ds : List (String × Nat)) (q : String) :
    ∀ acc : InodeTable,
    (∀ kv ∈ ds, kv.1 ≠ q ∧
      newK ++ "/" ++ strDrop (oldK ++ "/").length kv.1 ≠ q) →
    lookupA q (ds.foldl (InodeTable.renameStep oldK newK oldC newC (oldK ++ "/"))
      acc).pathToInode = lookupA q acc.pathToInode := by
  induction ds with
  | nil => intro acc _; rfl
  | cons kv rest ih =>
    intro acc h
    rw [List.foldl_cons]
    have hkv := h kv (List.mem_cons_self _ _)
    rw [ih _ (fun kv2 hkv2 => h kv2 (List.mem_cons_of_mem _ hkv2))]
    exact renameStep_path_frame oldK newK oldC newC hnewk acc kv q hkv.1 hkv.2

theorem renameStep_inode_frame (oldK newK oldC newC : String)
    (acc : InodeTable) (kv : String × Nat) (j : Nat) (hj : kv.2 ≠ j) :
    lookupA j (InodeTable.renameStep oldK newK oldC newC (oldK ++ "/") acc kv).inodeToPath =
      lookupA j acc.inodeToPath := by
  by_cases hkk : kv.1 = oldK
  · simp [InodeTable.renameStep, hkk]
  · simp only [InodeTable.renameStep, if_neg hkk]
    cases hm : lookupA kv.2 acc.inodeToPath with
    | none => rfl
    | some c =>
      show lookupA j (setA kv.2 _ acc.inodeToPath) = _
      rw [lookupA_setA, if_neg (fun hh => hj hh.symm)]

theorem renameFold_inode_frame (oldK newK oldC newC : String)
    (ds : List (String × Nat)) (j : Nat) :
    ∀ acc : InodeTable,
    (∀ kv ∈ ds, kv.2 ≠ j) →
    lookupA j (ds.foldl (InodeTable.renameStep oldK newK oldC newC (oldK ++ "/"))
      acc).inodeToPath = lookupA j acc.inodeToPath := by
  induction ds with
  | nil => intro acc _; rfl
  | cons kv rest ih =>
    intro acc h
    rw [List.foldl_cons]
    rw [ih _ (fun kv2 hkv2 => h kv2 (List.mem_cons_of_mem _ hkv2))]
    exact renameStep_inode_frame oldK newK oldC newC acc kv j
      (h kv (List.mem_cons_self _ _))

theorem renameFold_next (oldK newK oldC newC : String)
    (ds : List (String × Nat)) :
    ∀ acc : InodeTable,
    (ds.foldl (InodeTable.renameStep oldK newK oldC newC (oldK ++ "/"))
      acc).nextInode = acc.nextInode := by
  induction ds with
  | nil => intro acc; rfl
  | cons kv rest ih =>
    intro acc
    rw [List.foldl_cons, ih]
    by_cases hkk : kv.1 = oldK
    · simp [InodeTable.renameStep, hkk]
    · simp [InodeTable.renameStep, hkk]

theorem setA_eq_append_of_none {κ α : Type} [DecidableEq κ] {k : κ} (v : α)
    {m : List (κ × α)} (h : lookupA k m = none) : setA k v m = m ++ [(k, v)] := by
  induction m with
  | nil => rfl
  | cons kv rest ih =>
    obtain ⟨k1, v1⟩ := kv
    rw [lookupA] at h
    by_cases h1 : k1 = k
    · rw [if_pos h1] at h; cases h
    · rw [if_neg h1] at h
      rw [setA, if_neg h1, List.cons_append, ih h]

theorem lookupA_append_of_none {κ α : Type} [DecidableEq κ] {k : κ}
    {l1 : List (κ × α)} (l2 : List (κ × α)) (h : lookupA k l1 = none) :
    lookupA k (l1 ++ l2) = lookupA k l2 := by
  rw [lookupA_append, h]

theorem lookupA_append_of_some {κ α : Type} [DecidableEq κ] {k : κ} {v : α}
    {l1 : List (κ × α)} (l2 : List (κ × α)) (h : lookupA k l1 = some v) :
    lookupA k (l1 ++ l2) = some v := by
  rw [lookupA_append, h]

/-- C4 (amended): `InodeTable::rename` rewrites the whole subtree while
preserving inodes, provided the destination region is free.  With the old
key present, the new key and the whole region below it unused, and the two
keys not extending one another, after `rename`: the old entry is rebound to
the new key with the same inode and its stored canonical path becomes the
new canonical path; every entry whose key extends `oldKey ++ "/"` keeps its
inode under the rewritten key (`newKey` plus the original suffix), its old
key is gone, and its stored canonical path is the new canonical path plus
the original canonical suffix; entries outside the subtree are untouched
and the inode counter does not move, so no inode value is changed or
reused.  Without the freshness hypotheses the claim fails: `emplace`
silently loses the binding when the destination key already exists (see the
counterexample). -/
theorem inodeTable_rename_rewrites_subtree
    (t : InodeTable) (old_path new_path oldC newC oldK newK : String)
    (ino0 : Nat) (k : String) (i : Nat) (cI : String) (k2 : String) (i2 : Nat)
    (hoc : oldC = canonicalizePath old_path)
    (hnc : newC = canonicalizePath new_path)
    (hok : oldK = normalizeForLookup oldC)
    (hnk : newK = normalizeForLookup newC)
    (hokne : oldK ≠ "") (hnkne : newK ≠ "")
    (h0 : lookupA oldK t.pathToInode = some ino0)
    (hndK : (t.pathToInode.map Prod.fst).Nodup)
    (hndV : (t.pathToInode.map Prod.snd).Nodup)
    (hfresh : ∀ kv ∈ t.pathToInode, kv.1 ≠ newK ∧ strLeads (newK ++ "/") kv.1 = false)
    (hsep1 : strLeads (oldK ++ "/") newK = false)
    (hsep2 : strLeads (newK ++ "/") oldK = false)
    (hk : lookupA k t.pathToInode = some i)
    (hdesc : strLeads (oldK ++ "/") k = true)
    (hci : lookupA i t.inodeToPath = some cI)
    (hk2 : lookupA k2 t.pathToInode = some i2)
    (hk2o : k2 ≠ oldK)
    (hk2d : strLeads (oldK ++ "/") k2 = false) :
    lookupA newK (t.rename old_path new_path).pathToInode = some ino0 ∧
    lookupA ino0 (t.rename old_path new_path).inodeToPath = some newC ∧
    lookupA oldK (t.rename old_path new_path).pathToInode = none ∧
    lookupA (newK ++ "/" ++ strDrop (oldK.length + 1) k)
      (t.rename old_path new_path).pathToInode = some i ∧
    lookupA k (t.rename old_path new_path).pathToInode = none ∧
    lookupA i (t.rename old_path new_path).inodeToPath =
      some (newC ++ strDrop oldC.length cI) ∧
    (t.rename old_path new_path).nextInode = t.nextInode ∧
    lookupA k2 (t.rename old_path new_path).pathToInode = some i2 := by
  have hslashlen : (oldK ++ "/").length = oldK.length + 1 := by
    rw [String.length_append]
    rfl
  have hpfxne : (oldK ++ "/") ≠ "" := by
    apply ne_of_length_ne
    rw [hslashlen]
    intro hcon
    have hzz : ("" : String).length = 0 := rfl
    omega
  have homem : (oldK, ino0) ∈ t.pathToInode := lookupA_mem h0
  have honk : oldK ≠ newK := (hfresh _ homem).1
  have hkNeOld : k ≠ oldK := by
    intro he
    have hl := key_length_lt_of_leads hdesc
    rw [he] at hl
    omega
  have hT1p : emplaceA newK ino0 (eraseA oldK t.pathToInode) =
      eraseA oldK t.pathToInode ++ [(newK, ino0)] := by
    have hnone : lookupA newK (eraseA oldK t.pathToInode) = none := by
      apply lookupA_eq_none_of_forall
      intro kv hkv
      exact (hfresh kv ((eraseA_sublist oldK t.pathToInode).subset hkv)).1
    rw [emplaceA, hnone]
    exact setA_eq_append_of_none ino0 hnone
  have heq : t.rename old_path new_path =
      ((eraseA oldK t.pathToInode ++ [(newK, ino0)]).filter
          (fun kv => strLeads (oldK ++ "/") kv.1)).foldl
        (InodeTable.renameStep oldK newK oldC newC (oldK ++ "/"))
        ⟨eraseA oldK t.pathToInode ++ [(newK, ino0)],
          setA ino0 newC t.inodeToPath, t.nextInode⟩ := by
    simp only [InodeTable.rename]
    rw [← hoc, ← hnc, ← hok, ← hnk]
    rw [renameHead_some newK newC h0, if_neg hokne]
    rw [hT1p]
    have hpred : ∀ kv ∈ eraseA oldK t.pathToInode ++ [(newK, ino0)],
        (((oldK ++ "/") == "") || strLeads (oldK ++ "/") kv.1) =
          strLeads (oldK ++ "/") kv.1 := by
      intro kv _
      rw [beq_eq_false_iff_ne.mpr hpfxne, Bool.false_or]
    rw [List.filter_congr hpred]
  rw [heq]
  set D := (eraseA oldK t.pathToInode ++ [(newK, ino0)]).filter
    (fun kv => strLeads (oldK ++ "/") kv.1) with hD
  set T1 : InodeTable := ⟨eraseA oldK t.pathToInode ++ [(newK, ino0)],
    setA ino0 newC t.inodeToPath, t.nextInode⟩ with hT1
  -- facts about descendant entries
  have hDmem : ∀ kv ∈ D, kv ∈ t.pathToInode ∧ kv.1 ≠ oldK ∧
      strLeads (oldK ++ "/") kv.1 = true := by
    intro kv hkv
    rw [hD] at hkv
    have hf := List.mem_filter.mp hkv
    have hlead : strLeads (oldK ++ "/") kv.1 = true := hf.2
    rcases List.mem_append.mp hf.1 with hm | hm
    · refine ⟨(eraseA_sublist oldK t.pathToInode).subset hm, ?_, hlead⟩
      intro he
      have hl := key_length_lt_of_leads hlead
      rw [he] at hl
      omega
    · exfalso
      have hkv2 : kv = (newK, ino0) := List.mem_singleton.mp hm
      rw [hkv2] at hlead
      rw [hlead] at hsep1
      cases hsep1
  have hcondNewK : ∀ kv ∈ D, kv.1 ≠ newK ∧
      newK ++ "/" ++ strDrop (oldK ++ "/").length kv.1 ≠ newK := by
    intro kv hkv
    exact ⟨(hfresh kv (hDmem kv hkv).1).1, nk_ne_newK oldK newK kv.1⟩
  have hcondOldK : ∀ kv ∈ D, kv.1 ≠ oldK ∧
      newK ++ "/" ++ strDrop (oldK ++ "/").length kv.1 ≠ oldK := by
    intro kv hkv
    refine ⟨(hDmem kv hkv).2.1, ?_⟩
    intro he
    have hreg := nk_region oldK newK kv.1
    rw [he] at hreg
    rw [hreg] at hsep2
    cases hsep2
  have hcondK2 : ∀ kv ∈ D, kv.1 ≠ k2 ∧
      newK ++ "/" ++ strDrop (oldK ++ "/").length kv.1 ≠ k2 := by
    intro kv hkv
    obtain ⟨hmem, _, hlead⟩ := hDmem kv hkv
    constructor
    · intro he
      rw [he] at hlead
      rw [hlead] at hk2d
      cases hk2d
    · intro he
      have hreg := nk_region oldK newK kv.1
      rw [he] at hreg
      have hf2 := (hfresh (k2, i2) (lookupA_mem hk2)).2
      rw [hreg] at hf2
      cases hf2
  have hval0 : ∀ kv ∈ D, kv.2 ≠ ino0 := by
    intro kv hkv he
    obtain ⟨hmem, hko, _⟩ := hDmem kv hkv
    have hmem2 : (kv.1, ino0) ∈ t.pathToInode := by
      rw [← he]
      exact hmem
    exact hko (nodup_values_key_eq hndV hmem2 homem)
  have hine0 : i ≠ ino0 := by
    intro he
    have hmem2 : (k, ino0) ∈ t.pathToInode := by
      rw [← he]
      exact lookupA_mem hk
    exact hkNeOld (nodup_values_key_eq hndV hmem2 homem)
  have hvalI : ∀ kv ∈ D, kv.1 ≠ k → kv.2 ≠ i := by
    intro kv hkv hne he
    have hmem2 : (kv.1, i) ∈ t.pathToInode := by
      rw [← he]
      exact (hDmem kv hkv).1
    exact hne (nodup_values_key_eq hndV hmem2 (lookupA_mem hk))
  -- nodup of descendant keys
  have hndT1 : ((eraseA oldK t.pathToInode ++ [(newK, ino0)]).map Prod.fst).Nodup := by
    rw [List.map_append]
    apply List.Nodup.append
    · exact hndK.sublist ((eraseA_sublist oldK t.pathToInode).map Prod.fst)
    · exact List.nodup_singleton _
    · intro a ha hb
      have hb2 : a = newK := List.mem_singleton.mp hb
      obtain ⟨kv, hkv, hkv2⟩ := List.mem_map.mp ha
      exact (hfresh kv ((eraseA_sublist oldK t.pathToInode).subset hkv)).1
        (hkv2.trans hb2)
  have hndD : (D.map Prod.fst).Nodup := by
    rw [hD]
    exact hndT1.sublist (List.Sublist.map Prod.fst (List.filter_sublist _))
  -- decompose around the chosen descendant
  have hkmemD : (k, i) ∈ D := by
    rw [hD]
    apply List.mem_filter.mpr
    refine ⟨List.mem_append.mpr (Or.inl (mem_eraseA (lookupA_mem hk) hkNeOld)), hdesc⟩
  obtain ⟨ds1, ds2, hsplit⟩ := List.append_of_mem hkmemD
  have hknotin : k ∉ ds1.map Prod.fst ++ ds2.map Prod.fst := by
    have hnd2 := hndD
    rw [hsplit, List.map_append, List.map_cons] at hnd2
    exact (List.nodup_cons.mp (List.nodup_middle.mp hnd2)).1
  have hne1 : ∀ kv ∈ ds1, kv.1 ≠ k := by
    intro kv hkv he
    apply hknotin
    apply List.mem_append.mpr
    exact Or.inl (he ▸ List.mem_map_of_mem Prod.fst hkv)
  have hne2 : ∀ kv ∈ ds2, kv.1 ≠ k := by
    intro kv hkv he
    apply hknotin
    apply List.mem_append.mpr
    exact Or.inr (he ▸ List.mem_map_of_mem Prod.fst hkv)
  have hds1D : ∀ kv ∈ ds1, kv ∈ D := by
    intro kv hkv
    rw [hsplit]
    exact List.mem_append.mpr (Or.inl hkv)
  have hds2D : ∀ kv ∈ ds2, kv ∈ D := by
    intro kv hkv
    rw [hsplit]
    exact List.mem_append.mpr (Or.inr (List.mem_cons_of_mem _ hkv))
  have hcondNkK : ∀ kv ∈ D, kv.1 ≠ k →
      kv.1 ≠ newK ++ "/" ++ strDrop (oldK ++ "/").length k ∧
      newK ++ "/" ++ strDrop (oldK ++ "/").length kv.1 ≠
        newK ++ "/" ++ strDrop (oldK ++ "/").length k := by
    intro kv hkv hnekk
    obtain ⟨_, _, hlead⟩ := hDmem kv hkv
    constructor
    · intro he
      exact slash_region_disjoint honk hsep1 hsep2 hlead
        (he ▸ nk_region oldK newK k)
    · intro he
      exact hnekk (nk_inj hlead hdesc he)
  have hcondKds2 : ∀ kv ∈ ds2, kv.1 ≠ k ∧
      newK ++ "/" ++ strDrop (oldK ++ "/").length kv.1 ≠ k := by
    intro kv hkv
    refine ⟨hne2 kv hkv, ?_⟩
    intro he
    exact slash_region_disjoint honk hsep1 hsep2 (he ▸ hdesc)
      (he ▸ nk_region oldK newK kv.1)
  -- name the step function and the split fold
  have hfoldsplit : D.foldl (InodeTable.renameStep oldK newK oldC newC (oldK ++ "/")) T1 =
      ds2.foldl (InodeTable.renameStep oldK newK oldC newC (oldK ++ "/"))
        (InodeTable.renameStep oldK newK oldC newC (oldK ++ "/")
          (ds1.foldl (InodeTable.renameStep oldK newK oldC newC (oldK ++ "/")) T1)
          (k, i)) := by
    rw [hsplit, List.foldl_append, List.foldl_cons]
  have hstepPath : ∀ acc : InodeTable,
      (InodeTable.renameStep oldK newK oldC newC (oldK ++ "/") acc (k, i)).pathToInode =
        emplaceA (newK ++ "/" ++ strDrop (oldK ++ "/").length k) i
          (eraseA k acc.pathToInode) := by
    intro acc
    simp only [InodeTable.renameStep, if_neg hkNeOld, if_neg hnkne]
  have hnkk_ne_k : newK ++ "/" ++ strDrop (oldK ++ "/").length k ≠ k := by
    intro he
    exact slash_region_disjoint honk hsep1 hsep2 (he ▸ hdesc)
      (he ▸ nk_region oldK newK k)
  have hpre : lookupA (newK ++ "/" ++ strDrop (oldK ++ "/").length k)
      (ds1.foldl (InodeTable.renameStep oldK newK oldC newC (oldK ++ "/")) T1).pathToInode
      = none := by
    rw [renameFold_path_frame oldK newK oldC newC hnkne ds1 _ T1
      (fun kv hkv => hcondNkK kv (hds1D kv hkv) (hne1 kv hkv))]
    apply lookupA_eq_none_of_forall
    intro kv hkv
    rcases List.mem_append.mp hkv with hm | hm
    · intro he
      have hmem := (eraseA_sublist oldK t.pathToInode).subset hm
      have hf2 := (hfresh kv hmem).2
      rw [he] at hf2
      rw [nk_region oldK newK k] at hf2
      cases hf2
    · have hkv2 : kv = (newK, ino0) := List.mem_singleton.mp hm
      rw [hkv2]
      intro he
      exact nk_ne_newK oldK newK k he.symm
  have hi_pre : lookupA i
      (ds1.foldl (InodeTable.renameStep oldK newK oldC newC (oldK ++ "/")) T1).inodeToPath
      = some cI := by
    rw [renameFold_inode_frame oldK newK oldC newC ds1 i T1
      (fun kv hkv => hvalI kv (hds1D kv hkv) (hne1 kv hkv))]
    show lookupA i (setA ino0 newC t.inodeToPath) = some cI
    rw [lookupA_setA, if_neg hine0]
    exact hci
  refine ⟨?_, ?_, ?_, ?_, ?_, ?_, ?_, ?_⟩
  · -- new key bound to the old inode
    rw [renameFold_path_frame oldK newK oldC newC hnkne D newK T1 hcondNewK]
    show lookupA newK (eraseA oldK t.pathToInode ++ [(newK, ino0)]) = some ino0
    rw [lookupA_append_of_none _ (lookupA_eq_none_of_forall
      (fun kv hkv => (hfresh kv ((eraseA_sublist oldK t.pathToInode).subset hkv)).1))]
    rw [lookupA, if_pos rfl]
  · -- the old inode points at the new canonical path
    rw [renameFold_inode_frame oldK newK oldC newC D ino0 T1 hval0]
    exact lookupA_setA_self _ _ _
  · -- the old key is gone
    rw [renameFold_path_frame oldK newK oldC newC hnkne D oldK T1 hcondOldK]
    show lookupA oldK (eraseA oldK t.pathToInode ++ [(newK, ino0)]) = none
    rw [lookupA_append_of_none _ (by rw [lookupA_eraseA, if_pos rfl])]
    apply lookupA_eq_none_of_forall
    intro kv hkv
    have hkv2 : kv = (newK, ino0) := List.mem_singleton.mp hkv
    rw [hkv2]
    exact fun hh => honk hh.symm
  · -- the descendant is rebound at the rewritten key with its inode
    have hbridge : newK ++ "/" ++ strDrop (oldK.length + 1) k =
        newK ++ "/" ++ strDrop (oldK ++ "/").length k := by
      rw [hslashlen]
    rw [hbridge, hfoldsplit]
    rw [renameFold_path_frame oldK newK oldC newC hnkne ds2 _ _
      (fun kv hkv => hcondNkK kv (hds2D kv hkv) (hne2 kv hkv))]
    rw [hstepPath]
    have herase : lookupA (newK ++ "/" ++ strDrop (oldK ++ "/").length k)
        (eraseA k (ds1.foldl (InodeTable.renameStep oldK newK oldC newC (oldK ++ "/"))
          T1).pathToInode) = none := by
      rw [lookupA_eraseA, if_neg hnkk_ne_k]
      exact hpre
    rw [emplaceA, herase]
    rw [if_neg (by rw [Option.isSome_none]; exact Bool.false_ne_true)]
    exact lookupA_setA_self _ _ _
  · -- the descendant's old key is gone
    rw [hfoldsplit]
    rw [renameFold_path_frame oldK newK oldC newC hnkne ds2 k _ hcondKds2]
    rw [hstepPath]
    rw [lookupA_emplaceA]
    by_cases hs : (lookupA (newK ++ "/" ++ strDrop (oldK ++ "/").length k)
        (eraseA k (ds1.foldl (InodeTable.renameStep oldK newK oldC newC (oldK ++ "/"))
          T1).pathToInode)).isSome
    · rw [if_pos hs, lookupA_eraseA, if_pos rfl]
    · rw [if_neg hs, if_neg (fun hh => hnkk_ne_k hh.symm), lookupA_eraseA, if_pos rfl]
  · -- the descendant's canonical path is rewritten
    rw [hfoldsplit]
    rw [renameFold_inode_frame oldK newK oldC newC ds2 i _
      (fun kv hkv => hvalI kv (hds2D kv hkv) (hne2 kv hkv))]
    have hstepI : (InodeTable.renameStep oldK newK oldC newC (oldK ++ "/")
        (ds1.foldl (InodeTable.renameStep oldK newK oldC newC (oldK ++ "/")) T1)
        (k, i)).inodeToPath =
        setA i (newC ++ strDrop oldC.length cI)
          (ds1.foldl (InodeTable.renameStep oldK newK oldC newC (oldK ++ "/"))
            T1).inodeToPath := by
      simp only [InodeTable.renameStep, if_neg hkNeOld]
      rw [hi_pre]
    rw [hstepI]
    exact lookupA_setA_self _ _ _
  · -- the counter does not move
    rw [renameFold_next]
  · -- untouched entries keep their binding
    rw [renameFold_path_frame oldK newK oldC newC hnkne D k2 T1 hcondK2]
    show lookupA k2 (eraseA oldK t.pathToInode ++ [(newK, ino0)]) = some i2
    apply lookupA_append_of_some
    rw [lookupA_eraseA, if_neg hk2o]
    exact hk2

/-- Counterexample to C4 as stated: in a table that maps `"a"` to inode 2
and `"b"` to inode 3, `rename("a", "b")` does not rebind inode 2 to the new
key — `emplace` is a no-op on the existing binding, so `"b"` still maps to
inode 3 and inode 2 drops out of the path map entirely. -/
theorem inodeTable_rename_cx :
    lookupA "a" ((InodeTable.init.getOrCreate "a").1.getOrCreate
      "b").1.pathToInode = some 2 ∧
    lookupA "b" ((InodeTable.init.getOrCreate "a").1.getOrCreate
      "b").1.pathToInode = some 3 ∧
    lookupA "b" ((((InodeTable.init.getOrCreate "a").1.getOrCreate
      "b").1.rename "a" "b").pathToInode) = some 3 ∧
    ((((InodeTable.init.getOrCreate "a").1.getOrCreate
      "b").1.rename "a" "b").pathToInode).all (fun kv => kv.2 ≠ 2) = true := by
  decide

/-- Witness for the amended C4 at a concrete four-entry table, renaming
`"a"` to `"b"` with descendant `"a/c"` and untouched entry `"x"`. -/
theorem inodeTable_rename_rewrites_subtree_witness :
    lookupA "b" ((⟨[("", 1), ("a", 2), ("a/c", 3), ("x", 4)],
        [(1, ""), (2, "a"), (3, "a/c"), (4, "x")], 5⟩ :
        InodeTable).rename "a" "b").pathToInode = some 2 ∧
    lookupA 2 ((⟨[("", 1), ("a", 2), ("a/c", 3), ("x", 4)],
        [(1, ""), (2, "a"), (3, "a/c"), (4, "x")], 5⟩ :
        InodeTable).rename "a" "b").inodeToPath = some "b" ∧
    lookupA "a" ((⟨[("", 1), ("a", 2), ("a/c", 3), ("x", 4)],
        [(1, ""), (2, "a"), (3, "a/c"), (4, "x")], 5⟩ :
        InodeTable).rename "a" "b").pathToInode = none ∧
    lookupA ("b" ++ "/" ++ strDrop ("a".length + 1) "a/c")
      ((⟨[("", 1), ("a", 2), ("a/c", 3), ("x", 4)],
        [(1, ""), (2, "a"), (3, "a/c"), (4, "x")], 5⟩ :
        InodeTable).rename "a" "b").pathToInode = some 3 ∧
    lookupA "a/c" ((⟨[("", 1), ("a", 2), ("a/c", 3), ("x", 4)],
        [(1, ""), (2, "a"), (3, "a/c"), (4, "x")], 5⟩ :
        InodeTable).rename "a" "b").pathToInode = none ∧
    lookupA 3 ((⟨[("", 1), ("a", 2), ("a/c", 3), ("x", 4)],
        [(1, ""), (2, "a"), (3, "a/c"), (4, "x")], 5⟩ :
        InodeTable).rename "a" "b").inodeToPath =
      some ("b" ++ strDrop ("a" : String).length "a/c") ∧
    ((⟨[("", 1), ("a", 2), ("a/c", 3), ("x", 4)],
        [(1, ""), (2, "a"), (3, "a/c"), (4, "x")], 5⟩ :
        InodeTable).rename "a" "b").nextInode =
      (⟨[("", 1), ("a", 2), ("a/c", 3), ("x", 4)],
        [(1, ""), (2, "a"), (3, "a/c"), (4, "x")], 5⟩ :
        InodeTable).nextInode ∧
    lookupA "x" ((⟨[("", 1), ("a", 2), ("a/c", 3), ("x", 4)],
        [(1, ""), (2, "a"), (3, "a/c"), (4, "x")], 5⟩ :
        InodeTable).rename "a" "b").pathToInode = some 4 :=
  inodeTable_rename_rewrites_subtree
    ⟨[("", 1), ("a", 2), ("a/c", 3), ("x", 4)],
      [(1, ""), (2, "a"), (3, "a/c"), (4, "x")], 5⟩
    "a" "b" "a" "b" "a" "b" 2 "a/c" 3 "a/c" "x" 4
    (by decide) (by decide) (by decide) (by decide) (by decide) (by decide)
    (by decide) (by decide) (by decide) (by decide) (by decide) (by decide)
    (by decide) (by decide) (by decide) (by decide) (by decide) (by decide)

/-! ## On-disk state and the overwrite manager
(`src/vfs/overwritemanager.cpp`, `src/fuseconnector.cpp`)

The on-disk state relevant to the core is a finite map from host path to
file contents (a byte sequence).  Directories are implicit:
`create_directories` has no observable effect in this model, and
`fs::exists(staging)` on the staging directory is observationally the
existence of staged files. -/

abbrev Disk := List (String × List Nat)

def stagingPath (staging_dir relative_path : String) : String :=
  staging_dir ++ "/" ++ sanitizeRelative relative_path

def overwritePath (overwrite_dir relative_path : String) : String :=
  overwrite_dir ++ "/" ++ sanitizeRelative relative_path

/-- Model of `OverwriteManager::copyOnWrite`: ensure parents, return the
existing staging file if present, else copy the source if it exists, else
create an empty staging file. -/
def copyOnWrite (disk : Disk) (staging_dir source_path relative_path : String) :
    Disk × String :=
  let dest := stagingPath staging_dir relative_path
  if (lookupA dest disk).isSome then (disk, dest)
  else if source_path = "" then (setA dest [] disk, dest)
  else
    match lookupA source_path disk with
    | some bytes => (setA dest bytes disk, dest)
    | none => (setA dest [] disk, dest)

/-- Model of `OverwriteManager::copyOnWriteFromFd`: like `copyOnWrite` but
the source is read relative to the backing directory handle; a missing
source yields an empty staging file. -/
def copyOnWriteFromFd (disk backing : Disk) (staging_dir relative_path : String) :
    Disk × String :=
  let dest := stagingPath staging_dir relative_path
  if (lookupA dest disk).isSome then (disk, dest)
  else
    match lookupA (sanitizeRelative relative_path) backing with
    | some bytes => (setA dest bytes disk, dest)
    | none => (setA dest [] disk, dest)

/-- Model of `OverwriteManager::writeFile`: create or truncate the staging
file with the given bytes. -/
def writeFile (disk : Disk) (staging_dir relative_path : String)
    (data : List Nat) : Disk × String :=
  let dest := stagingPath staging_dir relative_path
  (setA dest data disk, dest)

/-- Model of `OverwriteManager::removeFile`: remove the staging copy if
present, else the overwrite copy, else report false. -/
def removeFile (disk : Disk) (staging_dir overwrite_dir relative_path : String) :
    Bool × Disk :=
  let staged := stagingPath staging_dir relative_path
  if (lookupA staged disk).isSome then (true, eraseA staged disk)
  else
    let over := overwritePath overwrite_dir relative_path
    if (lookupA over disk).isSome then (true, eraseA over disk)
    else (false, disk)

/-- Loop body of `FuseConnector::flushStaging` for one staged file: try
`fs::rename` into the overwrite directory; on failure fall back to
`copy_file` plus `remove`; when both fail the file is left in place (and
logged).  `failRename`/`failCopy` are oracles for the error codes of the
two filesystem calls. -/
def flushStep (staging_dir overwrite_dir : String)
    (failRename failCopy : String → Bool) (d : Disk) (kv : String × List Nat) :
    Disk :=
  let rel := strDrop (staging_dir ++ "/").length kv.1
  let dest := overwrite_dir ++ "/" ++ rel
  if failRename kv.1 = false then setA dest kv.2 (eraseA kv.1 d)
  else if failCopy kv.1 = false then setA dest kv.2 (eraseA kv.1 d)
  else d

/-- Model of `FuseConnector::flushStaging`: nothing happens when either
directory string is empty; otherwise every staged file is moved to the
corresponding overwrite path and the staging tree is removed at the end
(`fs::remove_all`), also removing files whose individual move failed. -/
def flushStaging (disk : Disk) (staging_dir overwrite_dir : String)
    (failRename failCopy : String → Bool) : Disk :=
  if staging_dir = "" ∨ overwrite_dir = "" then disk
  else
    let staged := disk.filter (fun kv => strLeads (staging_dir ++ "/") kv.1)
    let disk1 := staged.foldl (flushStep staging_dir overwrite_dir failRename failCopy)
      disk
    disk1.filter (fun kv => !(strLeads (staging_dir ++ "/") kv.1))

theorem lookupA_filter_true {κ α : Type} [DecidableEq κ] {q : κ}
    {l : List (κ × α)} {pred : κ × α → Bool}
    (h : ∀ kv ∈ l, kv.1 = q → pred kv = true) :
    lookupA q (l.filter pred) = lookupA q l := by
  induction l with
  | nil => rfl
  | cons kv rest ih =>
    obtain ⟨k1, v1⟩ := kv
    by_cases h1 : k1 = q
    · rw [List.filter_cons, h ⟨k1, v1⟩ (List.mem_cons_self _ _) h1]
      simp only [lookupA, if_pos h1]
    · rw [List.filter_cons]
      by_cases hp : pred (k1, v1) = true
      · rw [hp]
        simp only [lookupA, if_neg h1]
        exact ih (fun kv2 hkv2 => h kv2 (List.mem_cons_of_mem _ hkv2))
      · rw [Bool.not_eq_true] at hp
        rw [hp]
        simp only [lookupA, if_neg h1]
        exact ih (fun kv2 hkv2 => h kv2 (List.mem_cons_of_mem _ hkv2))

theorem lookupA_filter_false {κ α : Type} [DecidableEq κ] {q : κ}
    {l : List (κ × α)} {pred : κ × α → Bool}
    (h : ∀ kv ∈ l, kv.1 = q → pred kv = false) :
    lookupA q (l.filter pred) = none := by
  apply lookupA_eq_none_of_forall
  intro kv hkv he
  have hf := List.mem_filter.mp hkv
  rw [h kv hf.1 he] at hf
  cases hf.2

theorem flushFold_frame (staging_dir overwrite_dir : String)
    (failRename failCopy : String → Bool) (ds : List (String × List Nat))
    (x : String) :
    ∀ d : Disk,
    (∀ kv ∈ ds, kv.1 ≠ x ∧
      overwrite_dir ++ "/" ++ strDrop (staging_dir ++ "/").length kv.1 ≠ x) →
    lookupA x (ds.foldl (flushStep staging_dir overwrite_dir failRename failCopy) d) =
      lookupA x d := by
  induction ds with
  | nil => intro d _; rfl
  | cons kv rest ih =>
    intro d h
    rw [List.foldl_cons]
    rw [ih _ (fun kv2 hkv2 => h kv2 (List.mem_cons_of_mem _ hkv2))]
    have hkv := h kv (List.mem_cons_self _ _)
    have hmove : lookupA x (setA
        (overwrite_dir ++ "/" ++ strDrop (staging_dir ++ "/").length kv.1) kv.2
        (eraseA kv.1 d)) = lookupA x d := by
      rw [lookupA_setA, if_neg (fun hh => hkv.2 hh.symm),
        lookupA_eraseA, if_neg (fun hh => hkv.1 hh.symm)]
    by_cases hr : failRename kv.1 = false
    · simp only [flushStep, if_pos hr]
      exact hmove
    · by_cases hc : failCopy kv.1 = false
      · simp only [flushStep, if_neg hr, if_pos hc]
        exact hmove
      · simp only [flushStep, if_neg hr, if_neg hc]

/-- Destinations of the fold-back are never inside the staging region when
the staging and overwrite directories do not contain one another. -/
theorem strLeads_of_extend {p a b : String} (h : strLeads p a = true) :
    strLeads p (a ++ b) = true := by
  rw [strLeads] at h ⊢
  obtain ⟨r, hr⟩ := (leads_iff_append _ _).1 h
  rw [String.data_append, hr, List.append_assoc]
  exact leads_append _ _

theorem dest_not_staged {sd od : String}
    (hd1 : strLeads (sd ++ "/") (od ++ "/") = false)
    (hd2 : strLeads (od ++ "/") (sd ++ "/") = false) (rest : String) :
    strLeads (sd ++ "/") (od ++ "/" ++ rest) = false := by
  have honk : sd ≠ od := by
    intro he
    rw [he, strLeads, leads_refl] at hd1
    cases hd1
  have hsep1 : strLeads (sd ++ "/") od = false := by
    by_cases hx : strLeads (sd ++ "/") od = true
    · rw [strLeads_of_extend hx] at hd1
      cases hd1
    · rw [Bool.not_eq_true] at hx
      exact hx
  have hsep2 : strLeads (od ++ "/") sd = false := by
    by_cases hx : strLeads (od ++ "/") sd = true
    · rw [strLeads_of_extend hx] at hd2
      cases hd2
    · rw [Bool.not_eq_true] at hx
      exact hx
  have hod : strLeads (od ++ "/") (od ++ "/" ++ rest) = true := by
    rw [strLeads]
    simp only [String.data_append]
    exact leads_append _ _
  by_cases h : strLeads (sd ++ "/") (od ++ "/" ++ rest) = true
  · exact absurd (slash_region_disjoint honk hsep1 hsep2 h hod) (fun f => f)
  · rw [Bool.not_eq_true] at h
    exact h

theorem flushStep_moved (sd od : String) (fr fc : String → Bool) (d : Disk)
    (k : String) (v : List Nat) (h : fr k = false ∨ fc k = false) :
    flushStep sd od fr fc d (k, v) =
      setA (od ++ "/" ++ strDrop (sd ++ "/").length k) v (eraseA k d) := by
  by_cases hr : fr k = false
  · simp only [flushStep, if_pos hr]
  · have hc : fc k = false := h.resolve_left hr
    simp only [flushStep, if_neg hr, if_pos hc]

/-- C5: fold-back postcondition of `FuseConnector::flushStaging`.  For every
disk state with duplicate-free paths, non-empty staging and overwrite
directories that do not contain one another, and arbitrary per-file failure
oracles: (i) every path under the staging directory is absent afterwards,
even when that file's own move failed; (ii) every staged file whose rename
or fallback copy succeeded is present at the same relative path under the
overwrite directory with identical bytes. -/
theorem flushStaging_foldback
    (disk : Disk) (sd od : String) (failRename failCopy : String → Bool)
    (q p : String) (bytes : List Nat)
    (hsd : ¬ (sd = "" ∨ od = ""))
    (hd1 : strLeads (sd ++ "/") (od ++ "/") = false)
    (hd2 : strLeads (od ++ "/") (sd ++ "/") = false)
    (hnd : (disk.map Prod.fst).Nodup)
    (hq : strLeads (sd ++ "/") q = true)
    (hp : lookupA p disk = some bytes)
    (hps : strLeads (sd ++ "/") p = true)
    (hsucc : failRename p = false ∨ failCopy p = false) :
    lookupA q (flushStaging disk sd od failRename failCopy) = none ∧
    lookupA (od ++ "/" ++ strDrop (sd.length + 1) p)
      (flushStaging disk sd od failRename failCopy) = some bytes := by
  have hlen : (sd ++ "/").length = sd.length + 1 := by
    rw [String.length_append]
    rfl
  rw [← hlen]
  have hmem : (p, bytes) ∈ disk := lookupA_mem hp
  have hmemS : (p, bytes) ∈ disk.filter (fun kv => strLeads (sd ++ "/") kv.1) :=
    List.mem_filter.mpr ⟨hmem, hps⟩
  obtain ⟨s1, s2, hsplit⟩ := List.append_of_mem hmemS
  have hnds : ((disk.filter (fun kv => strLeads (sd ++ "/") kv.1)).map Prod.fst).Nodup :=
    List.Nodup.sublist ((List.filter_sublist _).map Prod.fst) hnd
  have hpnotin : p ∉ s2.map Prod.fst := by
    rw [hsplit] at hnds
    simp only [List.map_append, List.map_cons] at hnds
    have h2 := (List.nodup_append.mp hnds).2.1
    exact (List.nodup_cons.mp h2).1
  simp only [flushStaging, if_neg hsd]
  constructor
  · apply lookupA_filter_false
    intro kv _ he
    show (!(strLeads (sd ++ "/") kv.1)) = false
    rw [he, hq]
    rfl
  · refine Eq.trans (lookupA_filter_true ?_) ?_
    · intro kv _ he
      show (!(strLeads (sd ++ "/") kv.1)) = true
      rw [he, dest_not_staged hd1 hd2]
      rfl
    · rw [hsplit, List.foldl_append, List.foldl_cons]
      rw [flushStep_moved sd od failRename failCopy _ p bytes hsucc]
      have hforall : ∀ kv ∈ s2,
          kv.1 ≠ od ++ "/" ++ strDrop (sd ++ "/").length p ∧
          od ++ "/" ++ strDrop (sd ++ "/").length kv.1 ≠
            od ++ "/" ++ strDrop (sd ++ "/").length p := by
        intro kv hkv
        have hkvS : kv ∈ disk.filter (fun kv => strLeads (sd ++ "/") kv.1) := by
          rw [hsplit]
          exact List.mem_append.mpr (Or.inr (List.mem_cons_of_mem _ hkv))
        have hkvlead : strLeads (sd ++ "/") kv.1 = true :=
          (List.mem_filter.mp hkvS).2
        constructor
        · intro he
          have hds := dest_not_staged hd1 hd2 (strDrop (sd ++ "/").length p)
          rw [← he, hkvlead] at hds
          cases hds
        · intro he
          have hkp : kv.1 = p := nk_inj hkvlead hps he
          apply hpnotin
          rw [← hkp]
          exact List.mem_map_of_mem Prod.fst hkv
      rw [flushFold_frame sd od failRename failCopy s2 _ _ hforall]
      exact lookupA_setA_self _ _ _

theorem flushStaging_foldback_witness :
    lookupA "st/b.txt"
      (flushStaging [("st/a.txt", [1, 2]), ("st/b.txt", [3]), ("base/c", [9])]
        "st" "ow" (fun _ => true) (fun s => s == "st/b.txt")) = none ∧
    lookupA ("ow" ++ "/" ++ strDrop ("st".length + 1) "st/a.txt")
      (flushStaging [("st/a.txt", [1, 2]), ("st/b.txt", [3]), ("base/c", [9])]
        "st" "ow" (fun _ => true) (fun s => s == "st/b.txt")) = some [1, 2] :=
  flushStaging_foldback
    [("st/a.txt", [1, 2]), ("st/b.txt", [3]), ("base/c", [9])] "st" "ow"
    (fun _ => true) (fun s => s == "st/b.txt") "st/b.txt" "st/a.txt" [1, 2]
    (by decide) (by decide) (by decide) (by decide) (by decide) (by decide)
    (by decide) (Or.inr (by decide))
/-! ## The FUSE adapter (`src/vfs/mo2filesystem.cpp`)

The request context becomes an explicit state record and FUSE replies become
`Except Errno` results paired with the updated state.  Null-pointer guards
(`ctx == nullptr`, `name == nullptr`) have no counterpart, since the model
has no null strings or contexts.  The host-clock-dependent modification time
(`fileMtimeOrNow`) enters as an explicit parameter `mt`, and filesystem
write errors inside copy-on-write (which the C++ maps to EIO) do not arise,
because the on-disk map model has no failing writes. -/

inductive Errno where
  | einval
  | enoent
  | enotdir
  | eacces
  | ebadf
  | eioError
deriving DecidableEq

structure NodeSnapshot where
  found : Bool
  is_directory : Bool
  is_backing : Bool
  size : Nat
  mtime : Nat
  real_path : String
deriving DecidableEq

structure OpenFile where
  real_path : String
  writable : Bool
  is_backing : Bool
  relative_path : String
deriving DecidableEq

structure Mo2FsContext where
  tree : VfsTree
  inodes : InodeTable
  staging_dir : String
  overwrite_dir : String
  disk : Disk
  backing : Disk
  backing_fd_ok : Bool
  open_files : List (Nat × OpenFile)
  next_fh : Nat

/-- Model of the anonymous-namespace `inodeToPath` together with its `ok`
out-parameter: the root inode always yields the empty path, any other inode
succeeds exactly when the table knows it. -/
def inodeToPathM (t : InodeTable) (ino : Nat) : Option String :=
  let path := t.getPath ino
  if ino = 1 then some ""
  else if path = "" then none
  else some path

/-- The node `snapshotForPath` and `listChildrenSnapshot` read: the root for
the empty path, else the resolved node. -/
def nodeForPath (t : VfsTree) (path : String) : Option VfsNode :=
  if path = "" then some t.root
  else t.root.resolve (splitPath path)

def snapOfNode : Option VfsNode → NodeSnapshot
  | none => ⟨false, false, false, 0, 0, ""⟩
  | some (.file fi) => ⟨true, false, fi.is_backing, fi.size, fi.mtime, fi.real_path⟩
  | some (.dir _ _) => ⟨true, true, false, 0, 0, ""⟩

/-- Model of `snapshotForPath`: file fields are copied only off file nodes,
everything else keeps its zero initialisation. -/
def snapshotForPath (t : VfsTree) (path : String) : NodeSnapshot :=
  snapOfNode (nodeForPath t path)

/-- Model of `isWritableOpen`: `O_WRONLY` is bit 0 and `O_RDWR` is bit 1 of
the open flags. -/
def isWritableOpen (flags : Nat) : Bool :=
  (flags % 2 != 0) || (flags / 2 % 2 != 0)

/-- Model of `updateFileNode`: stat the freshly written real path for its
size (`0` when the stat fails, i.e. the path is not on disk) and reinsert
the file node with origin `origin`; the inserted node is not backing. -/
def updateFileNode (ctx : Mo2FsContext) (mt : Nat) (relative realPath origin : String) :
    Mo2FsContext :=
  let size := match lookupA realPath ctx.disk with
    | some bytes => bytes.length
    | none => 0
  { ctx with tree := ⟨ctx.tree.root.insertFile (splitPath relative)
      ⟨realPath, size, mt, origin, false⟩, ctx.tree.file_count, ctx.tree.dir_count⟩ }

/-- The write-intent branch of `mo2_open`: copy-on-write (through the
backing directory handle when possible), tree update with origin
`"Staging"`, and a handle recorded under a fresh descriptor. -/
def openWritableResult (ctx : Mo2FsContext) (path : String) (mt : Nat)
    (snapBacking : Bool) (snapReal : String) : Mo2FsContext × Except Errno Nat :=
  let cow :=
    if snapBacking && ctx.backing_fd_ok then
      copyOnWriteFromFd ctx.disk ctx.backing ctx.staging_dir path
    else
      copyOnWrite ctx.disk ctx.staging_dir snapReal path
  let ctx1 := updateFileNode { ctx with disk := cow.1 } mt path cow.2 "Staging"
  ({ ctx1 with
      open_files := setA ctx1.next_fh ⟨cow.2, true, false, path⟩ ctx1.open_files,
      next_fh := ctx1.next_fh + 1 }, .ok ctx1.next_fh)

/-- The body of `mo2_open` once the inode has been translated to a path:
missing or directory nodes fail with ENOENT. -/
def mo2_openPath (ctx : Mo2FsContext) (path : String) (flags mt : Nat) :
    Mo2FsContext × Except Errno Nat :=
  let snap := snapshotForPath ctx.tree path
  if !snap.found || snap.is_directory then (ctx, .error .enoent)
  else if isWritableOpen flags then
    openWritableResult ctx path mt snap.is_backing snap.real_path
  else
    ({ ctx with
        open_files := setA ctx.next_fh ⟨snap.real_path, false, snap.is_backing, path⟩
          ctx.open_files,
        next_fh := ctx.next_fh + 1 }, .ok ctx.next_fh)

/-- Model of `mo2_open`; the reply carries the fresh file handle. -/
def mo2_open (ctx : Mo2FsContext) (ino flags mt : Nat) :
    Mo2FsContext × Except Errno Nat :=
  match inodeToPathM ctx.inodes ino with
  | none => (ctx, .error .enoent)
  | some path => mo2_openPath ctx path flags mt

/-- The fields of `struct stat` that `mo2_getattr` actually fills in
(mode, uid and gid are constants; directory stats keep size 0 from the
zero initialisation). -/
structure StatAttr where
  ino : Nat
  is_dir : Bool
  size : Nat
  mtime : Nat
deriving DecidableEq

/-- Model of `mo2_getattr`. -/
def mo2_getattr (ctx : Mo2FsContext) (ino : Nat) : Except Errno StatAttr :=
  if ino = 1 then .ok ⟨1, true, 0, 0⟩
  else
    match inodeToPathM ctx.inodes ino with
    | none => .error .enoent
    | some path =>
      let snap := snapshotForPath ctx.tree path
      if !snap.found then .error .enoent
      else if snap.is_directory then .ok ⟨ino, true, 0, 0⟩
      else .ok ⟨ino, false, snap.size, snap.mtime⟩

/-- Model of `mo2_lookup`: the reply entry carries the child inode and the
snapshot the stat fields are filled from. -/
def mo2_lookup (ctx : Mo2FsContext) (parent : Nat) (name : String) :
    Mo2FsContext × Except Errno (Nat × NodeSnapshot) :=
  match inodeToPathM ctx.inodes parent with
  | none => (ctx, .error .enoent)
  | some parentPath =>
    let childPath := joinPath parentPath name
    let snap := snapshotForPath ctx.tree childPath
    if !snap.found then (ctx, .error .enoent)
    else
      let gc := ctx.inodes.getOrCreate childPath
      ({ ctx with inodes := gc.1 }, .ok (gc.2, snap))

/-- The body of `mo2_unlink` once the parent path is known: the manager must
remove a staged or overwrite shadow, else the call fails with EACCES before
any tree edit; on success the node is removed from the snapshot and the file
count decremented (the C++ guard `count > 0 ? count - 1 : 0` is exactly
truncated subtraction). -/
def mo2_unlinkRel (ctx : Mo2FsContext) (relative : String) :
    Mo2FsContext × Except Errno Unit :=
  let rm := removeFile ctx.disk ctx.staging_dir ctx.overwrite_dir relative
  if !rm.1 then (ctx, .error .eacces)
  else
    let r := ctx.tree.root.removeFromTree (splitPath relative)
    let fc := if r.1 then ctx.tree.file_count - 1 else ctx.tree.file_count
    ({ ctx with disk := rm.2, tree := ⟨r.2, fc, ctx.tree.dir_count⟩ }, .ok ())

/-- Model of `mo2_unlink`. -/
def mo2_unlink (ctx : Mo2FsContext) (parent : Nat) (name : String) :
    Mo2FsContext × Except Errno Unit :=
  match inodeToPathM ctx.inodes parent with
  | none => (ctx, .error .enoent)
  | some parentPath => mo2_unlinkRel ctx (joinPath parentPath name)

/-- One serialized directory entry of the readdir reply. -/
structure DirEnt where
  ino : Nat
  name : String
  is_dir : Bool
deriving DecidableEq

/-- Loop body of the entry collection in `mo2_readdir`: allocate an inode
for the child path and append the entry. -/
def readdirStep (path : String) (acc : InodeTable × List DirEnt) (c : String × Bool) :
    InodeTable × List DirEnt :=
  let gc := acc.1.getOrCreate (joinPath path c.1)
  (gc.1, acc.2 ++ [⟨gc.2, c.1, c.2⟩])

/-- The entry vector `mo2_readdir` builds before serializing: `.` for the
inode itself and `..` for the root, then one entry per listed child. -/
def readdirEntries (ctx : Mo2FsContext) (path : String) (ino : Nat) (node : VfsNode) :
    InodeTable × List DirEnt :=
  let children := node.listChildren.map (fun kv => (kv.1, kv.2.isDirB))
  let folded := children.foldl (readdirStep path) (ctx.inodes, [])
  (folded.1, ⟨ino, ".", true⟩ :: ⟨1, "..", true⟩ :: folded.2)

/-- Serialization loop of `mo2_readdir`: emit entries while they fit into
the remaining buffer, stop at the first entry that does not.  `entSize`
abstracts the per-entry record size computed by the host serializer, which
is outside this repository. -/
def serDirents (entSize : String → Nat) : List DirEnt → Nat → List DirEnt
  | [], _ => []
  | e :: rest, budget =>
    if budget < entSize e.name then []
    else e :: serDirents entSize rest (budget - entSize e.name)

/-- The body of `mo2_readdir` once the inode has been translated:
non-directories fail with ENOTDIR, otherwise the entry vector is serialized
starting at index `off`. -/
def mo2_readdirPath (ctx : Mo2FsContext) (entSize : String → Nat) (ino : Nat)
    (path : String) (size : Nat) (off : Int) :
    Mo2FsContext × Except Errno (List DirEnt) :=
  match nodeForPath ctx.tree path with
  | none => (ctx, .error .enotdir)
  | some node =>
    if !node.isDirB then (ctx, .error .enotdir)
    else
      let r := readdirEntries ctx path ino node
      ({ ctx with inodes := r.1 },
        .ok (serDirents entSize (r.2.drop off.toNat) size))

/-- Model of `mo2_readdir`. -/
def mo2_readdir (ctx : Mo2FsContext) (entSize : String → Nat) (ino size : Nat)
    (off : Int) : Mo2FsContext × Except Errno (List DirEnt) :=
  if off < 0 then (ctx, .error .einval)
  else
    match inodeToPathM ctx.inodes ino with
    | none => (ctx, .error .enoent)
    | some path => mo2_readdirPath ctx entSize ino path size off

theorem mo2_open_eq_path (ctx : Mo2FsContext) (ino flags mt : Nat) (path : String)
    (h : inodeToPathM ctx.inodes ino = some path) :
    mo2_open ctx ino flags mt = mo2_openPath ctx path flags mt := by
  simp [mo2_open, h]

theorem mo2_unlink_eq_rel (ctx : Mo2FsContext) (parent : Nat) (name : String)
    (parentPath : String) (h : inodeToPathM ctx.inodes parent = some parentPath) :
    mo2_unlink ctx parent name = mo2_unlinkRel ctx (joinPath parentPath name) := by
  simp [mo2_unlink, h]

theorem mo2_readdir_eq_path (ctx : Mo2FsContext) (entSize : String → Nat)
    (ino size : Nat) (off : Int) (path : String)
    (h1 : ¬ off < 0) (h2 : inodeToPathM ctx.inodes ino = some path) :
    mo2_readdir ctx entSize ino size off = mo2_readdirPath ctx entSize ino path size off := by
  simp [mo2_readdir, h1, h2]

theorem mo2_readdirPath_dir (ctx : Mo2FsContext) (entSize : String → Nat)
    (ino : Nat) (path : String) (size : Nat) (off : Int) (node : VfsNode)
    (h : nodeForPath ctx.tree path = some node) (hdir : node.isDirB = true) :
    mo2_readdirPath ctx entSize ino path size off =
      ({ ctx with inodes := (readdirEntries ctx path ino node).1 },
        .ok (serDirents entSize ((readdirEntries ctx path ino node).2.drop off.toNat) size)) := by
  simp [mo2_readdirPath, h, hdir]

theorem removeFile_staging (disk : Disk) (sd od rel : String)
    (h : (lookupA (stagingPath sd rel) disk).isSome = true) :
    removeFile disk sd od rel = (true, eraseA (stagingPath sd rel) disk) := by
  simp [removeFile, h]

theorem removeFile_none (disk : Disk) (sd od rel : String)
    (h1 : lookupA (stagingPath sd rel) disk = none)
    (h2 : lookupA (overwritePath od rel) disk = none) :
    removeFile disk sd od rel = (false, disk) := by
  simp [removeFile, h1, h2]

theorem removeFile_overwrite (disk : Disk) (sd od rel : String)
    (h1 : lookupA (stagingPath sd rel) disk = none)
    (h2 : (lookupA (overwritePath od rel) disk).isSome = true) :
    removeFile disk sd od rel = (true, eraseA (overwritePath od rel) disk) := by
  simp [removeFile, h1, h2]

/-- C6: `unlink` of a path that exists in neither the staging directory nor
the overwrite directory (for example a base-only file) reports EACCES and
leaves the whole context — tree snapshot, file count and all on-disk state —
unchanged; moreover `unlink` never touches the backing layer, and on disk it
can only ever remove the staged or the overwrite shadow of the named
path. -/
theorem mo2_unlink_base_only (ctx : Mo2FsContext) (parent p2 : Nat)
    (name n2 parentPath pp2 q : String)
    (hpp : inodeToPathM ctx.inodes parent = some parentPath)
    (hstag : lookupA (stagingPath ctx.staging_dir (joinPath parentPath name)) ctx.disk = none)
    (hover : lookupA (overwritePath ctx.overwrite_dir (joinPath parentPath name)) ctx.disk = none)
    (h2 : inodeToPathM ctx.inodes p2 = some pp2)
    (hq1 : q ≠ stagingPath ctx.staging_dir (joinPath pp2 n2))
    (hq2 : q ≠ overwritePath ctx.overwrite_dir (joinPath pp2 n2)) :
    mo2_unlink ctx parent name = (ctx, .error .eacces) ∧
    (mo2_unlink ctx p2 n2).1.backing = ctx.backing ∧
    lookupA q (mo2_unlink ctx p2 n2).1.disk = lookupA q ctx.disk := by
  refine ⟨?_, ?_, ?_⟩
  · rw [mo2_unlink_eq_rel ctx parent name parentPath hpp]
    simp only [mo2_unlinkRel, removeFile_none _ _ _ _ hstag hover]
    rfl
  · rw [mo2_unlink_eq_rel ctx p2 n2 pp2 h2]
    simp only [mo2_unlinkRel]
    cases hrm : (removeFile ctx.disk ctx.staging_dir ctx.overwrite_dir (joinPath pp2 n2)).1 with
    | true => simp [hrm]
    | false => simp [hrm]
  · rw [mo2_unlink_eq_rel ctx p2 n2 pp2 h2]
    simp only [mo2_unlinkRel]
    cases hs : lookupA (stagingPath ctx.staging_dir (joinPath pp2 n2)) ctx.disk with
    | some b =>
      rw [removeFile_staging _ _ _ _ (by rw [hs]; rfl)]
      show lookupA q (eraseA (stagingPath ctx.staging_dir (joinPath pp2 n2)) ctx.disk) =
        lookupA q ctx.disk
      rw [lookupA_eraseA, if_neg hq1]
    | none =>
      cases ho : lookupA (overwritePath ctx.overwrite_dir (joinPath pp2 n2)) ctx.disk with
      | none =>
        rw [removeFile_none _ _ _ _ hs ho]
        rfl
      | some b =>
        rw [removeFile_overwrite _ _ _ _ hs (by rw [ho]; rfl)]
        show lookupA q (eraseA (overwritePath ctx.overwrite_dir (joinPath pp2 n2)) ctx.disk) =
          lookupA q ctx.disk
        rw [lookupA_eraseA, if_neg hq2]

theorem mo2_unlink_base_only_witness :
    mo2_unlink
      ⟨⟨VfsNode.dir [("a.txt", VfsNode.file ⟨"base/a.txt", 5, 0, "_base_game", true⟩)]
          [("a.txt", "a.txt")], 1, 1⟩,
        ⟨[("", 1)], [(1, "")], 2⟩, "st", "ow", [("base/a.txt", [1])], [], true, [], 1⟩
      1 "a.txt" =
      (⟨⟨VfsNode.dir [("a.txt", VfsNode.file ⟨"base/a.txt", 5, 0, "_base_game", true⟩)]
          [("a.txt", "a.txt")], 1, 1⟩,
        ⟨[("", 1)], [(1, "")], 2⟩, "st", "ow", [("base/a.txt", [1])], [], true, [], 1⟩,
        .error .eacces) ∧
    (mo2_unlink
      ⟨⟨VfsNode.dir [("a.txt", VfsNode.file ⟨"base/a.txt", 5, 0, "_base_game", true⟩)]
          [("a.txt", "a.txt")], 1, 1⟩,
        ⟨[("", 1)], [(1, "")], 2⟩, "st", "ow", [("base/a.txt", [1])], [], true, [], 1⟩
      1 "x").1.backing = [] ∧
    lookupA "base/a.txt"
      (mo2_unlink
        ⟨⟨VfsNode.dir [("a.txt", VfsNode.file ⟨"base/a.txt", 5, 0, "_base_game", true⟩)]
            [("a.txt", "a.txt")], 1, 1⟩,
          ⟨[("", 1)], [(1, "")], 2⟩, "st", "ow", [("base/a.txt", [1])], [], true, [], 1⟩
        1 "x").1.disk = lookupA "base/a.txt" [("base/a.txt", [1])] :=
  mo2_unlink_base_only
    ⟨⟨VfsNode.dir [("a.txt", VfsNode.file ⟨"base/a.txt", 5, 0, "_base_game", true⟩)]
        [("a.txt", "a.txt")], 1, 1⟩,
      ⟨[("", 1)], [(1, "")], 2⟩, "st", "ow", [("base/a.txt", [1])], [], true, [], 1⟩
    1 1 "a.txt" "x" "" "" "base/a.txt"
    (by decide) (by decide) (by decide) (by decide) (by decide) (by decide)

theorem strLeads_self_append (p r : String) : strLeads p (p ++ r) = true := by
  rw [strLeads, String.data_append]
  exact leads_append _ _

theorem copyOnWrite_spec (disk : Disk) (sd src rel : String) :
    (copyOnWrite disk sd src rel).2 = stagingPath sd rel ∧
    ∃ bytes, lookupA (stagingPath sd rel) (copyOnWrite disk sd src rel).1 = some bytes := by
  cases hdest : lookupA (stagingPath sd rel) disk with
  | some b =>
    have hd : (lookupA (stagingPath sd rel) disk).isSome = true := by rw [hdest]; rfl
    exact ⟨by simp [copyOnWrite, hd], b, by simp [copyOnWrite, hd, hdest]⟩
  | none =>
    have hd : (lookupA (stagingPath sd rel) disk).isSome = false := by rw [hdest]; rfl
    by_cases hsrc : src = ""
    · exact ⟨by simp [copyOnWrite, hd, hsrc],
        [], by simp [copyOnWrite, hd, hsrc, lookupA_setA_self]⟩
    · cases hlk : lookupA src disk with
      | some bytes =>
        exact ⟨by simp [copyOnWrite, hd, hsrc, hlk],
          bytes, by simp [copyOnWrite, hd, hsrc, hlk, lookupA_setA_self]⟩
      | none =>
        exact ⟨by simp [copyOnWrite, hd, hsrc, hlk],
          [], by simp [copyOnWrite, hd, hsrc, hlk, lookupA_setA_self]⟩

theorem copyOnWriteFromFd_spec (disk backing : Disk) (sd rel : String) :
    (copyOnWriteFromFd disk backing sd rel).2 = stagingPath sd rel ∧
    ∃ bytes, lookupA (stagingPath sd rel) (copyOnWriteFromFd disk backing sd rel).1 =
      some bytes := by
  cases hdest : lookupA (stagingPath sd rel) disk with
  | some b =>
    have hd : (lookupA (stagingPath sd rel) disk).isSome = true := by rw [hdest]; rfl
    exact ⟨by simp [copyOnWriteFromFd, hd], b, by simp [copyOnWriteFromFd, hd, hdest]⟩
  | none =>
    have hd : (lookupA (stagingPath sd rel) disk).isSome = false := by rw [hdest]; rfl
    cases hlk : lookupA (sanitizeRelative rel) backing with
    | some bytes =>
      exact ⟨by simp [copyOnWriteFromFd, hd, hlk],
        bytes, by simp [copyOnWriteFromFd, hd, hlk, lookupA_setA_self]⟩
    | none =>
      exact ⟨by simp [copyOnWriteFromFd, hd, hlk],
        [], by simp [copyOnWriteFromFd, hd, hlk, lookupA_setA_self]⟩

theorem cow_if_spec (disk backing : Disk) (sd src rel : String) (b : Bool) :
    ((if b then copyOnWriteFromFd disk backing sd rel
      else copyOnWrite disk sd src rel).2 = stagingPath sd rel) ∧
    ∃ bytes, lookupA (stagingPath sd rel)
      (if b then copyOnWriteFromFd disk backing sd rel
       else copyOnWrite disk sd src rel).1 = some bytes := by
  cases b with
  | false => simpa using copyOnWrite_spec disk sd src rel
  | true => simpa using copyOnWriteFromFd_spec disk backing sd rel

theorem mo2_openPath_writable (ctx : Mo2FsContext) (path : String) (flags mt : Nat)
    (fi : VfsFileInfo)
    (hnode : nodeForPath ctx.tree path = some (VfsNode.file fi))
    (hw : isWritableOpen flags = true) :
    mo2_openPath ctx path flags mt =
      openWritableResult ctx path mt fi.is_backing fi.real_path := by
  simp [mo2_openPath, snapshotForPath, hnode, snapOfNode, hw]

theorem mo2_openPath_readonly (ctx : Mo2FsContext) (path : String) (flags mt : Nat)
    (fi : VfsFileInfo)
    (hnode : nodeForPath ctx.tree path = some (VfsNode.file fi))
    (hr : isWritableOpen flags = false) :
    mo2_openPath ctx path flags mt =
      ({ ctx with
          open_files := setA ctx.next_fh ⟨fi.real_path, false, fi.is_backing, path⟩
            ctx.open_files,
          next_fh := ctx.next_fh + 1 }, .ok ctx.next_fh) := by
  simp [mo2_openPath, snapshotForPath, hnode, snapOfNode, hr]

theorem openWritableResult_spec (ctx : Mo2FsContext) (path : String) (mt : Nat)
    (sb : Bool) (sr : String) :
    ∃ bytes : List Nat,
      (openWritableResult ctx path mt sb sr).2 = .ok ctx.next_fh ∧
      lookupA ctx.next_fh (openWritableResult ctx path mt sb sr).1.open_files =
        some ⟨stagingPath ctx.staging_dir path, true, false, path⟩ ∧
      lookupA (stagingPath ctx.staging_dir path)
        (openWritableResult ctx path mt sb sr).1.disk = some bytes ∧
      (openWritableResult ctx path mt sb sr).1.tree.root =
        ctx.tree.root.insertFile (splitPath path)
          ⟨stagingPath ctx.staging_dir path, bytes.length, mt, "Staging", false⟩ ∧
      (openWritableResult ctx path mt sb sr).1.inodes = ctx.inodes := by
  obtain ⟨hdest, bytes, hbytes⟩ :=
    cow_if_spec ctx.disk ctx.backing ctx.staging_dir sr path (sb && ctx.backing_fd_ok)
  refine ⟨bytes, ?_, ?_, ?_, ?_, ?_⟩
  · rfl
  · simp only [openWritableResult, updateFileNode, hdest]
    exact lookupA_setA_self _ _ _
  · simp only [openWritableResult, updateFileNode]
    exact hbytes
  · simp only [openWritableResult, updateFileNode, hdest, hbytes]
  · rfl

theorem mo2_getattr_file (ctx : Mo2FsContext) (ino : Nat) (path : String)
    (fi : VfsFileInfo)
    (hino : ino ≠ 1) (hpath : inodeToPathM ctx.inodes ino = some path)
    (hnode : nodeForPath ctx.tree path = some (VfsNode.file fi)) :
    mo2_getattr ctx ino = .ok ⟨ino, false, fi.size, fi.mtime⟩ := by
  simp [mo2_getattr, hino, hpath, snapshotForPath, hnode, snapOfNode]

/-- C3: copy-on-write happens exactly on write intent in `mo2_open`.  For a
resolved file node, an open with write intent replies with a fresh handle
whose recorded real path is the staging path of the file (and in particular
has the staging directory as a prefix) and whose backing flag is false, and
the tree node is updated so that a subsequent `mo2_getattr` reports the
staging file's size and the refreshed mtime; a read-only open of the same
node leaves the tree and the disk unchanged and records a handle with the
node's original real path and backing flag. -/
theorem mo2_open_cow (ctx : Mo2FsContext) (ino flags flags2 mt : Nat)
    (path : String) (fi : VfsFileInfo)
    (hino : ino ≠ 1)
    (hpath : inodeToPathM ctx.inodes ino = some path)
    (hnode : nodeForPath ctx.tree path = some (VfsNode.file fi))
    (hcomps : splitPath path ≠ [])
    (hw : isWritableOpen flags = true)
    (hr : isWritableOpen flags2 = false) :
    (mo2_open ctx ino flags mt).2 = .ok ctx.next_fh ∧
    lookupA ctx.next_fh (mo2_open ctx ino flags mt).1.open_files =
      some ⟨stagingPath ctx.staging_dir path, true, false, path⟩ ∧
    strLeads (ctx.staging_dir ++ "/") (stagingPath ctx.staging_dir path) = true ∧
    (∃ bytes : List Nat,
      lookupA (stagingPath ctx.staging_dir path) (mo2_open ctx ino flags mt).1.disk =
        some bytes ∧
      mo2_getattr (mo2_open ctx ino flags mt).1 ino = .ok ⟨ino, false, bytes.length, mt⟩) ∧
    (mo2_open ctx ino flags2 mt).1.tree = ctx.tree ∧
    (mo2_open ctx ino flags2 mt).1.disk = ctx.disk ∧
    (mo2_open ctx ino flags2 mt).2 = .ok ctx.next_fh ∧
    lookupA ctx.next_fh (mo2_open ctx ino flags2 mt).1.open_files =
      some ⟨fi.real_path, false, fi.is_backing, path⟩ := by
  have hpne : path ≠ "" := fun h => hcomps (by rw [h]; rfl)
  have hopen := mo2_open_eq_path ctx ino flags mt path hpath
  have hopen2 := mo2_open_eq_path ctx ino flags2 mt path hpath
  have hwrit := mo2_openPath_writable ctx path flags mt fi hnode hw
  have hro := mo2_openPath_readonly ctx path flags2 mt fi hnode hr
  obtain ⟨bytes, hok, hof, hdisk, htree, hinodes⟩ :=
    openWritableResult_spec ctx path mt fi.is_backing fi.real_path
  rw [hopen, hwrit, hopen2, hro]
  refine ⟨hok, hof, ?_, ⟨bytes, hdisk, ?_⟩, rfl, rfl, rfl, lookupA_setA_self _ _ _⟩
  · exact strLeads_self_append (ctx.staging_dir ++ "/") (sanitizeRelative path)
  · have hpath2 : inodeToPathM
        (openWritableResult ctx path mt fi.is_backing fi.real_path).1.inodes ino =
        some path := by rw [hinodes]; exact hpath
    have hnode2 : nodeForPath
        (openWritableResult ctx path mt fi.is_backing fi.real_path).1.tree path =
        some (VfsNode.file
          ⟨stagingPath ctx.staging_dir path, bytes.length, mt, "Staging", false⟩) := by
      simp only [nodeForPath, if_neg hpne]
      rw [htree, resolve_eq_resolveKeys, effKeys_of_allNE (splitPath_allNE path)]
      exact resolveKeys_insertFile_self (splitPath path) _ _ hcomps (splitPath_allNE path)
    exact mo2_getattr_file _ ino path _ hino hpath2 hnode2

theorem mo2_open_cow_witness :
    (mo2_open
      ⟨⟨VfsNode.dir [("a.txt", VfsNode.file ⟨"a.txt", 5, 7, "_base_game", true⟩)]
          [("a.txt", "a.txt")], 1, 1⟩,
        ⟨[("", 1), ("a.txt", 2)], [(1, ""), (2, "a.txt")], 3⟩, "st", "ow", [],
        [("a.txt", [9, 9, 9, 9, 9])], true, [], 7⟩ 2 1 42).2 = .ok 7 ∧
    lookupA 7 (mo2_open
      ⟨⟨VfsNode.dir [("a.txt", VfsNode.file ⟨"a.txt", 5, 7, "_base_game", true⟩)]
          [("a.txt", "a.txt")], 1, 1⟩,
        ⟨[("", 1), ("a.txt", 2)], [(1, ""), (2, "a.txt")], 3⟩, "st", "ow", [],
        [("a.txt", [9, 9, 9, 9, 9])], true, [], 7⟩ 2 1 42).1.open_files =
      some ⟨stagingPath "st" "a.txt", true, false, "a.txt"⟩ ∧
    strLeads ("st" ++ "/") (stagingPath "st" "a.txt") = true ∧
    (∃ bytes : List Nat,
      lookupA (stagingPath "st" "a.txt") (mo2_open
        ⟨⟨VfsNode.dir [("a.txt", VfsNode.file ⟨"a.txt", 5, 7, "_base_game", true⟩)]
            [("a.txt", "a.txt")], 1, 1⟩,
          ⟨[("", 1), ("a.txt", 2)], [(1, ""), (2, "a.txt")], 3⟩, "st", "ow", [],
          [("a.txt", [9, 9, 9, 9, 9])], true, [], 7⟩ 2 1 42).1.disk = some bytes ∧
      mo2_getattr (mo2_open
        ⟨⟨VfsNode.dir [("a.txt", VfsNode.file ⟨"a.txt", 5, 7, "_base_game", true⟩)]
            [("a.txt", "a.txt")], 1, 1⟩,
          ⟨[("", 1), ("a.txt", 2)], [(1, ""), (2, "a.txt")], 3⟩, "st", "ow", [],
          [("a.txt", [9, 9, 9, 9, 9])], true, [], 7⟩ 2 1 42).1 2 =
        .ok ⟨2, false, bytes.length, 42⟩) ∧
    (mo2_open
      ⟨⟨VfsNode.dir [("a.txt", VfsNode.file ⟨"a.txt", 5, 7, "_base_game", true⟩)]
          [("a.txt", "a.txt")], 1, 1⟩,
        ⟨[("", 1), ("a.txt", 2)], [(1, ""), (2, "a.txt")], 3⟩, "st", "ow", [],
        [("a.txt", [9, 9, 9, 9, 9])], true, [], 7⟩ 2 0 42).1.tree =
      ⟨VfsNode.dir [("a.txt", VfsNode.file ⟨"a.txt", 5, 7, "_base_game", true⟩)]
          [("a.txt", "a.txt")], 1, 1⟩ ∧
    (mo2_open
      ⟨⟨VfsNode.dir [("a.txt", VfsNode.file ⟨"a.txt", 5, 7, "_base_game", true⟩)]
          [("a.txt", "a.txt")], 1, 1⟩,
        ⟨[("", 1), ("a.txt", 2)], [(1, ""), (2, "a.txt")], 3⟩, "st", "ow", [],
        [("a.txt", [9, 9, 9, 9, 9])], true, [], 7⟩ 2 0 42).1.disk = [] ∧
    (mo2_open
      ⟨⟨VfsNode.dir [("a.txt", VfsNode.file ⟨"a.txt", 5, 7, "_base_game", true⟩)]
          [("a.txt", "a.txt")], 1, 1⟩,
        ⟨[("", 1), ("a.txt", 2)], [(1, ""), (2, "a.txt")], 3⟩, "st", "ow", [],
        [("a.txt", [9, 9, 9, 9, 9])], true, [], 7⟩ 2 0 42).2 = .ok 7 ∧
    lookupA 7 (mo2_open
      ⟨⟨VfsNode.dir [("a.txt", VfsNode.file ⟨"a.txt", 5, 7, "_base_game", true⟩)]
          [("a.txt", "a.txt")], 1, 1⟩,
        ⟨[("", 1), ("a.txt", 2)], [(1, ""), (2, "a.txt")], 3⟩, "st", "ow", [],
        [("a.txt", [9, 9, 9, 9, 9])], true, [], 7⟩ 2 0 42).1.open_files =
      some ⟨"a.txt", false, true, "a.txt"⟩ :=
  mo2_open_cow
    ⟨⟨VfsNode.dir [("a.txt", VfsNode.file ⟨"a.txt", 5, 7, "_base_game", true⟩)]
        [("a.txt", "a.txt")], 1, 1⟩,
      ⟨[("", 1), ("a.txt", 2)], [(1, ""), (2, "a.txt")], 3⟩, "st", "ow", [],
      [("a.txt", [9, 9, 9, 9, 9])], true, [], 7⟩
    2 1 0 42 "a.txt" ⟨"a.txt", 5, 7, "_base_game", true⟩
    (by decide) (by decide) (by rfl) (by decide) (by decide) (by decide)

theorem readdirFold_length (path : String) :
    ∀ (cs : List (String × Bool)) (i : InodeTable) (acc : List DirEnt),
    ((cs.foldl (readdirStep path) (i, acc)).2).length = acc.length + cs.length := by
  intro cs
  induction cs with
  | nil => intro i acc; rfl
  | cons c rest ih =>
    intro i acc
    rw [List.foldl_cons]
    show ((rest.foldl (readdirStep path) (readdirStep path (i, acc) c)).2).length = _
    have hstep : readdirStep path (i, acc) c =
        ((i.getOrCreate (joinPath path c.1)).1,
          acc ++ [⟨(i.getOrCreate (joinPath path c.1)).2, c.1, c.2⟩]) := rfl
    rw [hstep, ih]
    rw [List.length_append]
    simp only [List.length_cons, List.length_nil]
    omega

theorem readdirEntries_length (ctx : Mo2FsContext) (path : String) (ino : Nat)
    (node : VfsNode) :
    (readdirEntries ctx path ino node).2.length = node.listChildren.length + 2 := by
  simp only [readdirEntries, List.length_cons]
  rw [readdirFold_length]
  simp only [List.length_nil, List.length_map]
  omega

/-- C8 (amended): readdir end-of-directory boundary.  The entry vector that
`mo2_readdir` serializes from index `offset` starts with the synthetic `.`
and `..` entries followed by the children, so the reply is empty exactly
from offset = child count + 2 on; an offset equal to the bare child count
still returns entries (see the counterexample below). -/
theorem mo2_readdir_end (ctx : Mo2FsContext) (entSize : String → Nat)
    (ino size : Nat) (off : Int) (path : String) (node : VfsNode)
    (hpath : inodeToPathM ctx.inodes ino = some path)
    (hnode : nodeForPath ctx.tree path = some node)
    (hdir : node.isDirB = true)
    (hoff : off = (node.listChildren.length : Int) + 2) :
    (mo2_readdir ctx entSize ino size off).2 = .ok [] := by
  have h1 : ¬ off < 0 := by rw [hoff]; omega
  rw [mo2_readdir_eq_path ctx entSize ino size off path h1 hpath,
    mo2_readdirPath_dir ctx entSize ino path size off node hnode hdir]
  have hdrop : (readdirEntries ctx path ino node).2.drop off.toNat = [] := by
    apply List.drop_eq_nil_of_le
    rw [readdirEntries_length, hoff]
    omega
  show Except.ok (serDirents entSize ((readdirEntries ctx path ino node).2.drop off.toNat) size) =
    Except.ok ([] : List DirEnt)
  rw [hdrop]
  rfl

/-- C8 counterexample to the original boundary: for an empty directory
(child count 0), readdir at offset 0 = child count returns the two
synthetic entries `.` and `..`, not an empty reply. -/
theorem mo2_readdir_cx :
    (mo2_readdir
      ⟨⟨VfsNode.dir [("d", VfsNode.dir [] [])] [("d", "d")], 0, 2⟩,
        ⟨[("", 1), ("d", 2)], [(1, ""), (2, "d")], 3⟩, "st", "ow", [], [], false, [], 1⟩
      (fun _ => 8) 2 4096 0).2 = .ok [⟨2, ".", true⟩, ⟨1, "..", true⟩] ∧
    (mo2_readdir
      ⟨⟨VfsNode.dir [("d", VfsNode.dir [] [])] [("d", "d")], 0, 2⟩,
        ⟨[("", 1), ("d", 2)], [(1, ""), (2, "d")], 3⟩, "st", "ow", [], [], false, [], 1⟩
      (fun _ => 8) 2 4096 0).2 ≠ .ok [] := by
  constructor
  · rfl
  · intro he
    exact absurd (Except.ok.inj he) (by decide)

theorem mo2_readdir_end_witness :
    (mo2_readdir
      ⟨⟨VfsNode.dir [("d", VfsNode.dir [] [])] [("d", "d")], 0, 2⟩,
        ⟨[("", 1), ("d", 2)], [(1, ""), (2, "d")], 3⟩, "st", "ow", [], [], false, [], 1⟩
      (fun _ => 8) 2 4096 2).2 = .ok [] :=
  mo2_readdir_end
    ⟨⟨VfsNode.dir [("d", VfsNode.dir [] [])] [("d", "d")], 0, 2⟩,
      ⟨[("", 1), ("d", 2)], [(1, ""), (2, "d")], 3⟩, "st", "ow", [], [], false, [], 1⟩
    (fun _ => 8) 2 4096 2 "d" (VfsNode.dir [] [])
    (by decide) (by rfl) (by decide) (by decide)

theorem removeGo_last {part : String} {cs : List (String × VfsNode)} {c : VfsNode}
    (ds : List (String × String)) (h : lookupA (normalizeForLookup part) cs = some c) :
    (VfsNode.dir cs ds).removeGo [part] =
      (true, VfsNode.dir (eraseA (normalizeForLookup part) cs)
        (eraseA (normalizeForLookup part) ds)) := by
  simp [VfsNode.removeGo, h]

theorem removeGo_cons {part p2 : String} {rest : List String}
    {cs : List (String × VfsNode)} {c : VfsNode} (ds : List (String × String))
    (h : lookupA (normalizeForLookup part) cs = some c) :
    (VfsNode.dir cs ds).removeGo (part :: p2 :: rest) =
      (if (c.removeGo (p2 :: rest)).1 then
        if (c.removeGo (p2 :: rest)).2.isDirB && (c.removeGo (p2 :: rest)).2.childrenOf.isEmpty then
          (true, VfsNode.dir (eraseA (normalizeForLookup part) cs)
            (eraseA (normalizeForLookup part) ds))
        else (true, VfsNode.dir (setA (normalizeForLookup part) (c.removeGo (p2 :: rest)).2 cs) ds)
      else (false, VfsNode.dir cs ds)) := by
  simp [VfsNode.removeGo, h]

/-- A successful resolution makes `removeNodeRecursive` succeed, and the
resolved path is gone from the updated tree. -/
theorem removeGo_resolveKeys : ∀ (comps : List String) (n target : VfsNode),
    comps ≠ [] →
    resolveKeys (comps.map normalizeForLookup) n = some target →
    (n.removeGo comps).1 = true ∧
    resolveKeys (comps.map normalizeForLookup) (n.removeGo comps).2 = none := by
  intro comps
  induction comps with
  | nil => intro n t h _; exact absurd rfl h
  | cons part rest ih =>
    intro n target _ hres
    rw [List.map_cons] at hres
    cases n with
    | file fi =>
      rw [resolveKeys_file fi (List.cons_ne_nil _ _)] at hres
      cases hres
    | dir cs ds =>
      cases hlk : lookupA (normalizeForLookup part) cs with
      | none =>
        rw [resolveKeys_cons_none _ ds hlk] at hres
        cases hres
      | some child =>
        rw [resolveKeys_cons_some _ ds hlk] at hres
        cases rest with
        | nil =>
          rw [removeGo_last ds hlk]
          refine ⟨rfl, ?_⟩
          rw [List.map_cons, List.map_nil]
          exact resolveKeys_cons_none [] _ (by rw [lookupA_eraseA]; exact if_pos rfl)
        | cons p2 r2 =>
          obtain ⟨hrm, hrn⟩ := ih child target (List.cons_ne_nil _ _) hres
          rw [removeGo_cons ds hlk, if_pos hrm]
          by_cases hprune : ((child.removeGo (p2 :: r2)).2.isDirB &&
              (child.removeGo (p2 :: r2)).2.childrenOf.isEmpty) = true
          · rw [if_pos hprune]
            refine ⟨rfl, ?_⟩
            rw [List.map_cons]
            exact resolveKeys_cons_none _ _ (by rw [lookupA_eraseA]; exact if_pos rfl)
          · rw [if_neg hprune]
            refine ⟨rfl, ?_⟩
            rw [List.map_cons]
            rw [resolveKeys_cons_some _ _ (lookupA_setA_self _ _ _)]
            exact hrn

/-- C9: a successful unlink hides all lower layers until the next rebuild.
When the tree resolves the path and an on-disk shadow exists — the staging
copy if present, otherwise the overwrite copy — unlink succeeds, erases
exactly that one shadow from disk (any other disk path, in particular the
respective other shadow or any base file, is untouched), removes the tree
node entirely so the path no longer resolves and a subsequent lookup
reports ENOENT, and leaves the backing layer alone; a rebuild over the
cached base entries and the overwrite directory re-exposes whatever those
layers still provide at the path. -/
theorem mo2_unlink_hides (ctx : Mo2FsContext) (parent : Nat)
    (name parentPath q shadow : String) (sbytes : List Nat) (node : VfsNode)
    (cached_files : List CachedBaseFile) (data_dir2 : String)
    (mods : List (String × List WalkEntry)) (overwriteEntries : List WalkEntry)
    (pre post : List LayerOp) (comps2 p2 : List String) (info : VfsFileInfo)
    (hpp : inodeToPathM ctx.inodes parent = some parentPath)
    (hshadow :
      (lookupA (stagingPath ctx.staging_dir (joinPath parentPath name)) ctx.disk =
          some sbytes ∧
        shadow = stagingPath ctx.staging_dir (joinPath parentPath name)) ∨
      (lookupA (stagingPath ctx.staging_dir (joinPath parentPath name)) ctx.disk = none ∧
        lookupA (overwritePath ctx.overwrite_dir (joinPath parentPath name)) ctx.disk =
          some sbytes ∧
        shadow = overwritePath ctx.overwrite_dir (joinPath parentPath name)))
    (hcomps : splitPath (joinPath parentPath name) ≠ [])
    (hres : resolveKeys ((splitPath (joinPath parentPath name)).map normalizeForLookup)
      ctx.tree.root = some node)
    (hq : q ≠ shadow)
    (hops : layerOps cached_files mods overwriteEntries =
      pre ++ LayerOp.insFile comps2 info :: post)
    (hne2 : comps2 ≠ []) (hall2 : allNE comps2 = true)
    (hkeys2 : effKeys p2 = comps2.map normalizeForLookup)
    (hpost2 : post.all (fun op => untouchedOp op (comps2.map normalizeForLookup)) = true) :
    (mo2_unlink ctx parent name).2 = .ok () ∧
    lookupA shadow (mo2_unlink ctx parent name).1.disk = none ∧
    lookupA q (mo2_unlink ctx parent name).1.disk = lookupA q ctx.disk ∧
    (mo2_unlink ctx parent name).1.tree.root.resolve
      (splitPath (joinPath parentPath name)) = none ∧
    (mo2_lookup (mo2_unlink ctx parent name).1 parent name).2 = .error .enoent ∧
    (mo2_unlink ctx parent name).1.backing = ctx.backing ∧
    (buildDataDirVfs cached_files data_dir2 mods overwriteEntries).root.resolve p2 =
      some (VfsNode.file info) := by
  have hrmF : removeFile ctx.disk ctx.staging_dir ctx.overwrite_dir
      (joinPath parentPath name) = (true, eraseA shadow ctx.disk) := by
    rcases hshadow with ⟨hs, hsh⟩ | ⟨hs, ho, hsh⟩
    · rw [hsh]
      exact removeFile_staging _ _ _ _ (by rw [hs]; rfl)
    · rw [hsh]
      exact removeFile_overwrite _ _ _ _ hs (by rw [ho]; rfl)
  obtain ⟨hrm, hrn⟩ :=
    removeGo_resolveKeys (splitPath (joinPath parentPath name)) ctx.tree.root node hcomps hres
  have hrft : ctx.tree.root.removeFromTree (splitPath (joinPath parentPath name)) =
      ctx.tree.root.removeGo (splitPath (joinPath parentPath name)) := by
    simp [VfsNode.removeFromTree, hcomps]
  have hred : mo2_unlinkRel ctx (joinPath parentPath name) =
      ({ ctx with
          disk := eraseA shadow ctx.disk,
          tree := ⟨(ctx.tree.root.removeGo (splitPath (joinPath parentPath name))).2,
            ctx.tree.file_count - 1, ctx.tree.dir_count⟩ }, .ok ()) := by
    simp only [mo2_unlinkRel, hrmF, hrft, hrm]
    rfl
  rw [mo2_unlink_eq_rel ctx parent name parentPath hpp, hred]
  refine ⟨rfl, ?_, ?_, ?_, ?_, rfl, ?_⟩
  · show lookupA shadow (eraseA shadow ctx.disk) = none
    rw [lookupA_eraseA]
    exact if_pos rfl
  · show lookupA q (eraseA shadow ctx.disk) = lookupA q ctx.disk
    rw [lookupA_eraseA, if_neg hq]
  · show ((ctx.tree.root.removeGo (splitPath (joinPath parentPath name))).2).resolve
      (splitPath (joinPath parentPath name)) = none
    rw [resolve_eq_resolveKeys, effKeys_of_allNE (splitPath_allNE _)]
    exact hrn
  · have hjne : joinPath parentPath name ≠ "" := fun h => hcomps (by rw [h]; rfl)
    have hsnap : nodeForPath
        (⟨(ctx.tree.root.removeGo (splitPath (joinPath parentPath name))).2,
          ctx.tree.file_count - 1, ctx.tree.dir_count⟩ : VfsTree)
        (joinPath parentPath name) = none := by
      simp only [nodeForPath, if_neg hjne]
      show ((ctx.tree.root.removeGo (splitPath (joinPath parentPath name))).2).resolve
        (splitPath (joinPath parentPath name)) = none
      rw [resolve_eq_resolveKeys, effKeys_of_allNE (splitPath_allNE _)]
      exact hrn
    simp [mo2_lookup, hpp, snapshotForPath, hsnap, snapOfNode]
  · rw [resolve_eq_resolveKeys, hkeys2, buildDataDirVfs_root_eq, hops]
    exact resolveKeys_applyOps_last pre post comps2 info _ hne2 hall2 hpost2

theorem mo2_unlink_hides_witness :
    (mo2_unlink
      ⟨⟨VfsNode.dir [("a.txt", VfsNode.file ⟨"ow/a.txt", 1, 0, "Overwrite", false⟩)]
          [("a.txt", "a.txt")], 1, 1⟩,
        ⟨[("", 1)], [(1, "")], 2⟩, "st", "ow",
        [("ow/a.txt", [6]), ("keep.bin", [7])], [], true, [], 1⟩ 1 "a.txt").2 = .ok () ∧
    lookupA "ow/a.txt"
      (mo2_unlink
        ⟨⟨VfsNode.dir [("a.txt", VfsNode.file ⟨"ow/a.txt", 1, 0, "Overwrite", false⟩)]
            [("a.txt", "a.txt")], 1, 1⟩,
          ⟨[("", 1)], [(1, "")], 2⟩, "st", "ow",
          [("ow/a.txt", [6]), ("keep.bin", [7])], [], true, [], 1⟩ 1 "a.txt").1.disk = none ∧
    lookupA "keep.bin"
      (mo2_unlink
        ⟨⟨VfsNode.dir [("a.txt", VfsNode.file ⟨"ow/a.txt", 1, 0, "Overwrite", false⟩)]
            [("a.txt", "a.txt")], 1, 1⟩,
          ⟨[("", 1)], [(1, "")], 2⟩, "st", "ow",
          [("ow/a.txt", [6]), ("keep.bin", [7])], [], true, [], 1⟩ 1 "a.txt").1.disk =
      lookupA "keep.bin" [("ow/a.txt", [6]), ("keep.bin", [7])] ∧
    (mo2_unlink
      ⟨⟨VfsNode.dir [("a.txt", VfsNode.file ⟨"ow/a.txt", 1, 0, "Overwrite", false⟩)]
          [("a.txt", "a.txt")], 1, 1⟩,
        ⟨[("", 1)], [(1, "")], 2⟩, "st", "ow",
        [("ow/a.txt", [6]), ("keep.bin", [7])], [], true, [], 1⟩
      1 "a.txt").1.tree.root.resolve (splitPath (joinPath "" "a.txt")) = none ∧
    (mo2_lookup
      (mo2_unlink
        ⟨⟨VfsNode.dir [("a.txt", VfsNode.file ⟨"ow/a.txt", 1, 0, "Overwrite", false⟩)]
            [("a.txt", "a.txt")], 1, 1⟩,
          ⟨[("", 1)], [(1, "")], 2⟩, "st", "ow",
          [("ow/a.txt", [6]), ("keep.bin", [7])], [], true, [], 1⟩ 1 "a.txt").1
      1 "a.txt").2 = .error .enoent ∧
    (mo2_unlink
      ⟨⟨VfsNode.dir [("a.txt", VfsNode.file ⟨"ow/a.txt", 1, 0, "Overwrite", false⟩)]
          [("a.txt", "a.txt")], 1, 1⟩,
        ⟨[("", 1)], [(1, "")], 2⟩, "st", "ow",
        [("ow/a.txt", [6]), ("keep.bin", [7])], [], true, [], 1⟩ 1 "a.txt").1.backing = [] ∧
    (buildDataDirVfs [⟨"a.txt", 10, 0, false⟩] "/game/Data" []
        [⟨"a.txt", true, false, true, "/ow/a.txt", 8, 0, true⟩]).root.resolve ["a.txt"] =
      some (VfsNode.file ⟨"/ow/a.txt", 8, 0, "Overwrite", false⟩) :=
  mo2_unlink_hides
    ⟨⟨VfsNode.dir [("a.txt", VfsNode.file ⟨"ow/a.txt", 1, 0, "Overwrite", false⟩)]
        [("a.txt", "a.txt")], 1, 1⟩,
      ⟨[("", 1)], [(1, "")], 2⟩, "st", "ow",
      [("ow/a.txt", [6]), ("keep.bin", [7])], [], true, [], 1⟩
    1 "a.txt" "" "keep.bin" "ow/a.txt" [6]
    (VfsNode.file ⟨"ow/a.txt", 1, 0, "Overwrite", false⟩)
    [⟨"a.txt", 10, 0, false⟩] "/game/Data" []
    [⟨"a.txt", true, false, true, "/ow/a.txt", 8, 0, true⟩]
    [LayerOp.insFile ["a.txt"] ⟨"a.txt", 10, 0, "_base_game", true⟩] []
    ["a.txt"] ["a.txt"] ⟨"/ow/a.txt", 8, 0, "Overwrite", false⟩
    (by decide) (Or.inr ⟨by decide, by decide, by decide⟩) (by decide) (by rfl)
    (by decide) (by decide) (by decide) (by decide) (by decide) (by decide)

/-! ## The one-shot base scan (`scanDataDir`, `src/vfs/vfstree.cpp`)

The recursive directory walk is parametrized as a list of raw entries (the
fields the loop body reads off the iterator); an absent or unopenable top
directory is the `none` walk — `fs::exists` is false, or the iterator
constructed with `skip_permission_denied` is immediately exhausted. -/

structure RawEntry where
  rel : String
  relOk : Bool
  isDir : Bool
  isRegular : Bool
  size : Nat
  mtime : Nat
  mtimeOk : Bool
deriving DecidableEq

/-- Loop body of `scanDataDir` for one walked entry. -/
def scanEntry (e : RawEntry) : Option CachedBaseFile :=
  if !e.relOk || e.rel == "" then none
  else if e.isDir then some ⟨e.rel, 0, 0, true⟩
  else if !e.isRegular then none
  else some ⟨e.rel, e.size, (if e.mtimeOk then e.mtime else 0), false⟩

/-- Model of `scanDataDir`. -/
def scanDataDir : Option (List RawEntry) → List CachedBaseFile
  | none => []
  | some entries => entries.filterMap scanEntry

/-- Modelled from the spec: the error type of the scan contract. -/
inductive VfsError where
  | ioFailed
deriving DecidableEq

/-- Modelled from the spec: the error-contract version of the scan the
specification describes — failing with `IoFailed` when the top directory
cannot be opened — for comparison with `scanDataDir`. -/
def scanSpec : Option (List RawEntry) → Except VfsError (List CachedBaseFile)
  | none => .error .ioFailed
  | some entries => .ok (entries.filterMap scanEntry)

theorem scanEntry_relOk_false (e : RawEntry) (h : e.relOk = false) :
    scanEntry e = none := by
  simp [scanEntry, h]

theorem scanEntry_wf (e : RawEntry) (h1 : e.relOk = true) (h2 : (e.rel == "") = false)
    (h3 : (e.isDir || e.isRegular) = true) : ∃ cf, scanEntry e = some cf := by
  cases hd : e.isDir with
  | true => exact ⟨⟨e.rel, 0, 0, true⟩, by simp [scanEntry, h1, h2, hd]⟩
  | false =>
    have hr : e.isRegular = true := by
      rw [hd] at h3
      simpa using h3
    exact ⟨⟨e.rel, e.size, (if e.mtimeOk then e.mtime else 0), false⟩,
      by simp [scanEntry, h1, h2, hd, hr]⟩

theorem scanDataDir_skip_unreadable : ∀ l : List RawEntry,
    (l.filter (fun e => e.relOk)).filterMap scanEntry = l.filterMap scanEntry := by
  intro l
  induction l with
  | nil => rfl
  | cons e rest ih =>
    cases hr : e.relOk with
    | true => simp [List.filter_cons, hr, List.filterMap_cons, ih]
    | false =>
      simp [List.filter_cons, hr, List.filterMap_cons, scanEntry_relOk_false e hr, ih]

theorem scanDataDir_wf_length : ∀ entries : List RawEntry,
    entries.all (fun e => e.relOk && !(e.rel == "") && (e.isDir || e.isRegular)) = true →
    (entries.filterMap scanEntry).length = entries.length := by
  intro entries
  induction entries with
  | nil => intro _; rfl
  | cons e rest ih =>
    intro hwf
    rw [List.all_cons, Bool.and_eq_true] at hwf
    obtain ⟨hpe, hrest⟩ := hwf
    rw [Bool.and_eq_true, Bool.and_eq_true] at hpe
    obtain ⟨⟨h1, h2⟩, h3⟩ := hpe
    have h2f : (e.rel == "") = false := by
      cases hb : (e.rel == "") with
      | false => rfl
      | true =>
        rw [hb] at h2
        cases h2
    obtain ⟨cf, hcf⟩ := scanEntry_wf e h1 h2f h3
    simp [List.filterMap_cons, hcf, ih hrest]

/-- C7 counterexample: for a data directory whose top directory cannot be
opened (the `none` walk), `scanDataDir` succeeds with an empty cache — its
return type has no failure channel at all — where the specified contract
demands an `IoFailed` failure. -/
theorem scanDataDir_cx :
    scanDataDir none = ([] : List CachedBaseFile) ∧
    scanSpec none = .error .ioFailed :=
  ⟨rfl, rfl⟩

/-- C7 (amended): scan contract.  An absent or unopenable top directory
yields an empty cache (not a failure); when the walk succeeds, entries
whose relative path cannot be computed are silently skipped (dropping them
from the walk does not change the result), and a walk of well-formed
entries is returned in full. -/
theorem scanDataDir_contract (entries entries2 : List RawEntry)
    (hwf : entries.all
      (fun e => e.relOk && !(e.rel == "") && (e.isDir || e.isRegular)) = true) :
    scanDataDir none = ([] : List CachedBaseFile) ∧
    scanDataDir (some (entries2.filter (fun e => e.relOk))) = scanDataDir (some entries2) ∧
    (scanDataDir (some entries)).length = entries.length :=
  ⟨rfl, scanDataDir_skip_unreadable entries2, scanDataDir_wf_length entries hwf⟩

theorem scanDataDir_contract_witness :
    scanDataDir none = ([] : List CachedBaseFile) ∧
    scanDataDir (some (List.filter (fun e => e.relOk)
      [⟨"bad", false, false, true, 1, 0, false⟩, ⟨"ok.txt", true, false, true, 2, 0, true⟩])) =
      scanDataDir (some
        [⟨"bad", false, false, true, 1, 0, false⟩, ⟨"ok.txt", true, false, true, 2, 0, true⟩]) ∧
    (scanDataDir (some [⟨"a.txt", true, false, true, 3, 9, true⟩,
        ⟨"sub", true, true, false, 0, 0, false⟩])).length =
      ([⟨"a.txt", true, false, true, 3, 9, true⟩,
        ⟨"sub", true, true, false, 0, 0, false⟩] : List RawEntry).length :=
  scanDataDir_contract
    [⟨"a.txt", true, false, true, 3, 9, true⟩, ⟨"sub", true, true, false, 0, 0, false⟩]
    [⟨"bad", false, false, true, 1, 0, false⟩, ⟨"ok.txt", true, false, true, 2, 0, true⟩]
    (by decide)
end FM
